import Mathlib

/-!
# pokemoves-backend: `backend/internal/client/helpers.go`

A shallow embedding of the helper functions of the API client, followed by
theorems about them.

Modelling conventions.

* A Go `string` is modelled as the list of its Unicode code points
  (`List Char`).  The texts handled by the client come out of `encoding/json`,
  which only produces valid UTF-8, and every search pattern used by the code is
  itself valid UTF-8, so substring search on code points and on bytes agree.
* A Go `int` is a 64-bit signed integer; it is modelled by `Int`, and the one
  place where the width matters (`strconv.Atoi` range errors) checks the bounds
  `-2^63 ≤ n < 2^63` explicitly.
* A function that can panic at run time returns `Option`; `none` is the panic.
-/

namespace Pokemoves

/-! ## Go standard library functions used by the helpers -/

/-- Inner loop of `strings.ReplaceAll old new` for a non-empty `old`: scan from
the left; at an occurrence of `old` emit `new` and skip over the occurrence
(the counter holds how many characters of it are still to be skipped),
otherwise copy one character. -/
def replaceScan (old new : List Char) : Nat → List Char → List Char
  | _, [] => []
  | k + 1, _ :: cs => replaceScan old new k cs
  | 0, c :: cs =>
      if old.isPrefixOf (c :: cs) then new ++ replaceScan old new (old.length - 1) cs
      else c :: replaceScan old new 0 cs

/-- Go `strings.ReplaceAll(s, old, new)`: every non-overlapping occurrence of
`old`, found from the left, is replaced by `new`.  For an empty `old` Go
inserts `new` at the start and after every code point. -/
def ReplaceAll (s old new : List Char) : List Char :=
  if old = [] then new ++ s.flatMap (fun c => c :: new)
  else replaceScan old new 0 s

/-- Go `strings.Split(s, sep)` for a one-character separator: the pieces of `s`
between the separators, in order; always at least one piece. -/
def Split (sep : Char) : List Char → List (List Char)
  | [] => [[]]
  | c :: cs =>
      if c = sep then [] :: Split sep cs
      else
        match Split sep cs with
        | [] => [[c]]
        | seg :: segs => (c :: seg) :: segs

/-- Digit loop of `strconv.Atoi`: `n = n*10 + (ch - '0')`, a syntax error
(`none`) on any character that is not an ASCII digit. -/
def atoiDigits : List Char → Nat → Option Nat
  | [], n => some n
  | ch :: cs, n =>
      if 48 ≤ ch.toNat ∧ ch.toNat ≤ 57 then atoiDigits cs (n * 10 + (ch.toNat - 48))
      else none

/-- Go `strconv.Atoi` on a 64-bit platform: an optional sign, then at least one
decimal digit and nothing else; `none` stands for a non-nil error, either a
syntax error or a value outside `[-2^63, 2^63 - 1]`. -/
def Atoi (s : List Char) : Option Int :=
  match s with
  | [] => none
  | c :: cs =>
      let neg : Bool := c = '-'
      let ds := if c = '-' ∨ c = '+' then cs else s
      if ds = [] then none
      else
        match atoiDigits ds 0 with
        | none => none
        | some n =>
            if neg then (if n ≤ 2 ^ 63 then some (-(n : Int)) else none)
            else (if n < 2 ^ 63 then some (n : Int) else none)

/-! ## helpers.go -/

/-- Source `getUrlID`: `strings.Split(url, "/")[6]`, then `strconv.Atoi`,
with `-1` when `Atoi` reports an error.  The index expression panics
(`none`) when the split has fewer than seven pieces. -/
def getUrlID (url : List Char) : Option Int :=
  match (Split '/' url).get? 6 with
  | none => none
  | some url_id =>
      match Atoi url_id with
      | none => some (-1)
      | some id => some id

/-- The `switch id` of `resolveVersionGroup`. -/
def versionGroupSwitch (id : Int) : Int :=
  if id = 1 ∨ id = 2 then 1
  else if id = 3 ∨ id = 4 then 2
  else if id = 5 ∨ id = 6 ∨ id = 7 ∨ id = 12 ∨ id = 13 then 3
  else if id = 8 ∨ id = 9 ∨ id = 10 then 4
  else if id = 11 ∨ id = 14 then 5
  else if id = 15 ∨ id = 16 then 6
  else if id = 17 ∨ id = 18 ∨ id = 19 then 7
  else if id = 20 ∨ id = 21 ∨ id = 22 ∨ id = 23 ∨ id = 24 then 8
  else -1

/-- Source `resolveVersionGroup`: `getUrlID` (whose panic propagates), then
the switch. -/
def resolveVersionGroup (url : List Char) : Option Int :=
  match getUrlID url with
  | none => none
  | some id => some (versionGroupSwitch id)

/-- Source `sanitizeString`: fifteen `strings.ReplaceAll` calls in sequence. -/
def sanitizeString (s : List Char) : List Char :=
  let ret := ReplaceAll s "\n".toList " ".toList
  let ret := ReplaceAll ret "\u00ad".toList "".toList
  let ret := ReplaceAll ret "\u2019".toList "'".toList
  let ret := ReplaceAll ret "- ".toList "-".toList
  let ret := ReplaceAll ret "SPCL. ATK".toList "Sp. Atk".toList
  let ret := ReplaceAll ret "SPCL. DEF".toList "Sp. Def".toList
  let ret := ReplaceAll ret "SPCL.ATK".toList "Sp. Atk".toList
  let ret := ReplaceAll ret "SPCL.DEF".toList "Sp. Def".toList
  let ret := ReplaceAll ret "SP. ATK".toList "Sp. Atk".toList
  let ret := ReplaceAll ret "SP. DEF".toList "Sp. Def".toList
  let ret := ReplaceAll ret "ATTACK".toList "Attack".toList
  let ret := ReplaceAll ret "DEFENSE".toList "Defense".toList
  let ret := ReplaceAll ret "SPEED".toList "Speed".toList
  let ret := ReplaceAll ret "physi cal".toList "physical".toList
  let ret := ReplaceAll ret "criti cal".toList "critical".toList
  ret

/-- The fields of the package's `flavorText` struct that helpers.go reads:
`Text`, `Language.Name` and `VersionGroup.Url`. -/
structure flavorText where
  Text : List Char
  LanguageName : List Char
  VersionGroupUrl : List Char
deriving DecidableEq, Repr

/-- Source `getDefaultFlavorText`: the sanitized text of the first entry whose
language is `lang`, the empty string when there is none. -/
def getDefaultFlavorText (lang : List Char) : List flavorText → List Char
  | [] => []
  | text :: rest =>
      if lang = text.LanguageName then sanitizeString text.Text
      else getDefaultFlavorText lang rest

/-- The `for _, text := range texts` loop of `getFlavorText`; `defaultText` is
returned when the loop runs to its end.  `resolveVersionGroup` is evaluated for
every entry the loop reaches, so its panic is the panic of the loop. -/
def flavorTextLoop (gen : Int) (lang defaultText : List Char) :
    List flavorText → Option (List Char)
  | [] => some defaultText
  | text :: rest =>
      match resolveVersionGroup text.VersionGroupUrl with
      | none => none
      | some id =>
          if gen = id ∧ lang = text.LanguageName then some (sanitizeString text.Text)
          else flavorTextLoop gen lang defaultText rest

/-- Source `getFlavorText`. -/
def getFlavorText (gen : Int) (lang : List Char) (texts : List flavorText) :
    Option (List Char) :=
  let defaultText := getDefaultFlavorText lang texts
  flavorTextLoop gen lang defaultText texts

/-- Source `getGeneration`: the `switch generation` on the name. -/
def getGeneration (generation : List Char) : Int :=
  if generation = "generation-i".toList then 1
  else if generation = "generation-ii".toList then 2
  else if generation = "generation-iii".toList then 3
  else if generation = "generation-iv".toList then 4
  else if generation = "generation-v".toList then 5
  else if generation = "generation-vi".toList then 6
  else if generation = "generation-vii".toList then 7
  else if generation = "generation-viii".toList then 8
  else -1

/-- Source `getOriginGeneration`: the tagless `switch`, cases tried in order. -/
def getOriginGeneration (id : Int) : Int :=
  if id ≤ 151 then 1
  else if id ≤ 251 then 2
  else if id ≤ 386 then 3
  else if id ≤ 493 then 4
  else if id ≤ 649 then 5
  else if id ≤ 721 then 6
  else if id ≤ 809 then 7
  else if id ≤ 905 then 8
  else 0

/-! ## CSV output -/

/-- Modelled from the spec: the package's error values.  `ErrEmptyCsv` is the
empty-input error that `ToCsv` returns (declared outside helpers.go); the
other constructors stand for the errors of the operating system and of the
listing request, whose text the helpers never inspect. -/
inductive Error where
  | ErrEmptyCsv
  | ErrOpen
  | ErrWrite
  | ErrListing
deriving DecidableEq, Repr

/-- The two methods of the `CsvEntry` interface, as the slices they return. -/
structure CsvEntry where
  GetHeader : List (List Char)
  ToSlice : List (List Char)
deriving DecidableEq, Repr

/-- The file system as `ToCsv` sees it: the existing files with their
contents, and the paths handed to `os.OpenFile` so far, in call order. -/
structure Disk where
  files : List (List Char × List Char)
  opened : List (List Char)
deriving DecidableEq, Repr

/-- Content of the file at `path`, `none` when there is no such file. -/
def Disk.content (d : Disk) (path : List Char) : Option (List Char) :=
  (d.files.find? (fun f => f.1 = path)).map (fun f => f.2)

/-- Append `bytes` to the file at `path` (the file was opened with `O_APPEND`). -/
def Disk.appendTo (d : Disk) (path bytes : List Char) : Disk :=
  { d with files := d.files.map (fun f => if f.1 = path then (f.1, f.2 ++ bytes) else f) }

/-- What the environment decides during one `ToCsv` call: whether
`os.OpenFile` fails on an existing file, which `csv.Writer.Write` call (counted
from 0) is the first to return an error, and whether the final `Flush` fails. -/
structure Faults where
  openErr : Bool
  writeErrAt : Option Nat
  flushErr : Bool
deriving DecidableEq, Repr

/-- Go `unicode.IsSpace`. -/
def isSpace (r : Char) : Bool :=
  let n := r.toNat
  (9 ≤ n ∧ n ≤ 13) ∨ n = 32 ∨ n = 133 ∨ n = 160 ∨ n = 5760 ∨ (8192 ≤ n ∧ n ≤ 8202)
    ∨ n = 8232 ∨ n = 8233 ∨ n = 8239 ∨ n = 8287 ∨ n = 12288

/-- Go `csv.Writer.fieldNeedsQuotes` for an ASCII delimiter `comma`. -/
def fieldNeedsQuotes (comma : Char) (field : List Char) : Bool :=
  if field = [] then false
  else if field = "\\.".toList then true
  else if field.any (fun c => c = '\n' ∨ c = '\r' ∨ c = '"' ∨ c = comma) then true
  else
    match field with
    | [] => false
    | r1 :: _ => isSpace r1

/-- One field as `csv.Writer.Write` emits it (`UseCRLF` is false): verbatim
when no quotes are needed, otherwise between double quotes with every double
quote doubled. -/
def writeField (comma : Char) (field : List Char) : List Char :=
  if fieldNeedsQuotes comma field then
    '"' :: field.flatMap (fun c => if c = '"' then ['"', '"'] else [c]) ++ ['"']
  else field

/-- The bytes of one record as `csv.Writer.Write` emits them: the fields
separated by `comma`, then a newline. -/
def encodeRecord (comma : Char) (record : List (List Char)) : List Char :=
  List.intercalate [comma] (record.map (writeField comma)) ++ ['\n']

/-- A `csv.Writer` with `Comma = '|'`: the bytes accepted so far and the number
of `Write` calls made. -/
structure Writer where
  out : List Char
  nWrites : Nat
deriving DecidableEq, Repr

/-- Go `csv.Writer.Write`: fails when the environment says so, otherwise
accepts the encoded record. -/
def Writer.Write (io : Faults) (w : Writer) (record : List (List Char)) :
    Writer × Option Error :=
  if io.writeErrAt = some w.nWrites then ({ w with nWrites := w.nWrites + 1 }, some Error.ErrWrite)
  else ({ out := w.out ++ encodeRecord '|' record, nWrites := w.nWrites + 1 }, none)

/-- Source `writeCsvEntry`. -/
def writeCsvEntry (io : Faults) (w : Writer) (entry : CsvEntry) : Writer × Option Error :=
  Writer.Write io w entry.ToSlice

/-- The `for _, entry := range entries` loop of `ToCsv`. -/
def writeEntries (io : Faults) : Writer → List CsvEntry → Writer × Option Error
  | w, [] => (w, none)
  | w, entry :: rest =>
      match writeCsvEntry io w entry with
      | (w1, some err) => (w1, some err)
      | (w1, none) => writeEntries io w1 rest

/-- Source `ToCsv`, on the path `csvFile.Name()`.  The result pairs the file
system afterwards with the returned `error` (`none` is `nil`).  The deferred
`Flush` hands the accepted bytes to the file unless it fails; its error is
dropped, as in the source.  (After a failed `Write` the records accepted
before it are taken to have reached the file.) -/
def ToCsv (io : Faults) (d : Disk) (csvFile : List Char) (entries : List CsvEntry) :
    Disk × Option Error :=
  match entries with
  | [] => (d, some Error.ErrEmptyCsv)
  | first :: _ =>
      let d1 : Disk := { d with opened := d.opened ++ [csvFile] }
      if io.openErr = true ∨ d.content csvFile = none then (d1, some Error.ErrOpen)
      else
        let w : Writer := { out := [], nWrites := 0 }
        let r :=
          match Writer.Write io w first.GetHeader with
          | (w1, some err) => (w1, some err)
          | (w1, none) => writeEntries io w1 entries
        let d2 := if io.flushErr = true then d1 else d1.appendTo csvFile r.1.out
        (d2, r.2)

/-! ## Fetching -/

/-- The fields of the listing response that `GetAPIData` reads: `Count` and
the `Url` of each element of `Results`. -/
structure BasicResponse where
  Count : Int
  Results : List (List Char)
deriving DecidableEq, Repr

/-- A call made on the `APIReceiver`; `GoFetchEntries` is the `go` statement
that starts `FetchEntries(url, lang, index)` as a new task. -/
inductive Call where
  | Init (count : Int)
  | AddWorker
  | GoFetchEntries (url lang : List Char) (index : Nat)
  | Wait
  | PostProcess
deriving DecidableEq, Repr

/-- How a call of `GetAPIData` ends: it returns an `error` (`none` is `nil`),
or it panics. -/
inductive Outcome where
  | returned (err : Option Error)
  | panicked
deriving DecidableEq, Repr

/-- The loop `for i := 0; i < basicResp.Count; i++` of `GetAPIData`, from
index `i` with `todo` iterations left: `AddWorker`, then the `go` statement,
whose argument `basicResp.Results[i].Url` panics when `i` is out of range.
The Boolean tells whether the loop ran to its end. -/
def fetchLoop (results : List (List Char)) (lang : List Char) :
    Nat → Nat → List Call × Bool
  | 0, _ => ([], true)
  | todo + 1, i =>
      match results.get? i with
      | none => ([Call.AddWorker], false)
      | some url =>
          let r := fetchLoop results lang todo (i + 1)
          (Call.AddWorker :: Call.GoFetchEntries url lang i :: r.1, r.2)

/-- Source `GetAPIData`.  `getBasicResponse` (declared outside helpers.go, it
performs the listing request) is a parameter.  The result is the sequence of
calls made on the receiver and how the function ends. -/
def GetAPIData (getBasicResponse : Int → List Char → Except Error BasicResponse)
    (limit : Int) (endpoint lang : List Char) : List Call × Outcome :=
  match getBasicResponse limit endpoint with
  | Except.error err => ([], Outcome.returned (some err))
  | Except.ok basicResp =>
      let r := fetchLoop basicResp.Results lang basicResp.Count.toNat 0
      if r.2 then
        (Call.Init basicResp.Count :: r.1 ++ [Call.Wait, Call.PostProcess], Outcome.returned none)
      else (Call.Init basicResp.Count :: r.1, Outcome.panicked)

/-- Source `FetchData`: `GetAPIData` for each receiver in the given order, with
`r.GetEndpoint()` as endpoint; the first non-nil error is returned at once.
A receiver is given by its endpoint.  The result lists, receiver by receiver,
the calls made on it (none for a receiver that was not reached) and tells how
the function ends; a panic inside `GetAPIData` ends it. -/
def FetchData (getBasicResponse : Int → List Char → Except Error BasicResponse)
    (limit : Int) (lang : List Char) : List (List Char) → List (List Call) × Outcome
  | [] => ([], Outcome.returned none)
  | r :: rest =>
      match GetAPIData getBasicResponse limit r lang with
      | (calls, Outcome.returned none) =>
          let next := FetchData getBasicResponse limit lang rest
          (calls :: next.1, next.2)
      | (calls, Outcome.returned (some err)) =>
          (calls :: rest.map (fun _ => []), Outcome.returned (some err))
      | (calls, Outcome.panicked) => (calls :: rest.map (fun _ => []), Outcome.panicked)

/-! ## Generating the CSV files -/

/-- The collections that `GenerateCsvs` reads from a `PokemonReceiver`. -/
structure PokemonReceiver where
  CsvEntries : List CsvEntry
  GetCsvRelations : List CsvEntry
deriving DecidableEq, Repr

/-- The collection that `GenerateCsvs` reads from a `MovesReceiver`. -/
structure MovesReceiver where
  CsvEntries : List CsvEntry
deriving DecidableEq, Repr

/-- The collections that `GenerateCsvs` reads from an `AbilityReceiver`. -/
structure AbilityReceiver where
  CsvEntries : List CsvEntry
  GetCsvRelations : List CsvEntry
deriving DecidableEq, Repr

/-- What the environment decides during `GenerateCsvs`: whether the output
directory is missing and `os.MkdirAll` fails, on which paths `os.Create`
fails, and the faults of the `ToCsv` call on each path. -/
structure GenEnv where
  mkdirErr : Bool
  createErr : List Char → Bool
  faults : List Char → Faults

/-- One `ToCsv` call made by `GenerateCsvs`: the path of the file, the
collection, and the error returned (`none` is `nil`). -/
structure CsvCall where
  path : List Char
  entries : List CsvEntry
  result : Option Error
deriving DecidableEq, Repr

/-- The state of a run of `GenerateCsvs`: the file system and the `ToCsv`
calls made so far, in call order. -/
structure GenState where
  disk : Disk
  csvCalls : List CsvCall
deriving DecidableEq, Repr

/-- Go `os.Create`: the file at `path` exists afterwards and is empty. -/
def Disk.create (d : Disk) (path : List Char) : Disk :=
  { d with files := (path, []) :: d.files.filter (fun f => f.1 ≠ path) }

/-- Go `filepath.Join(dest, fname)` for a relative directory written `./name`
or `./name/` and a plain file name: the cleaned path `name/fname`. -/
def filepathJoin (dest fname : List Char) : List Char :=
  let d1 := if "./".toList.isPrefixOf dest then dest.drop 2 else dest
  let d2 := if d1.getLast? = some '/' then d1.dropLast else d1
  d2 ++ '/' :: fname

/-- Source `createDir`: an error only when the directory is missing and
`os.MkdirAll` fails. -/
def createDir (env : GenEnv) (_path : List Char) : Option Error :=
  if env.mkdirErr then some Error.ErrOpen else none

/-- Source `CreateFile`: `createDir`, then `os.Create` on the joined path.  The
returned `*os.File` is closed by the deferred `Close`; it is represented by its
name, the only thing `ToCsv` uses of it. -/
def CreateFile (env : GenEnv) (d : Disk) (dest fname : List Char) :
    Disk × Except Error (List Char) :=
  match createDir env dest with
  | some err => (d, Except.error err)
  | none =>
      let fp := filepathJoin dest fname
      if env.createErr fp then (d, Except.error Error.ErrOpen)
      else (d.create fp, Except.ok fp)

/-- One `err = ToCsv(file, entries)` statement of `GenerateCsvs`: the call is
recorded with its result. -/
def csvStep (env : GenEnv) (s : GenState) (file : List Char) (entries : List CsvEntry) :
    GenState × Option Error :=
  let r := ToCsv (env.faults file) s.disk file entries
  ({ disk := r.1, csvCalls := s.csvCalls ++ [{ path := file, entries := entries, result := r.2 }] },
    r.2)

/-- Source `GenerateCsvs`.  Every `handleError(err)` with a non-nil `err` is
`log.Fatalf`: the process ends there, which is the `some err` result; `none`
means that the function ran to its end. -/
def GenerateCsvs (env : GenEnv) (d : Disk) (pr : PokemonReceiver) (mr : MovesReceiver)
    (ar : AbilityReceiver) : GenState × Option Error :=
  match CreateFile env d "./data/".toList "moves.csv".toList with
  | (d, Except.error err) => ({ disk := d, csvCalls := [] }, some err)
  | (d, Except.ok movesCsv) =>
  match CreateFile env d "./data/".toList "pokemon.csv".toList with
  | (d, Except.error err) => ({ disk := d, csvCalls := [] }, some err)
  | (d, Except.ok pokemonCsv) =>
  match CreateFile env d "./data/".toList "ability.csv".toList with
  | (d, Except.error err) => ({ disk := d, csvCalls := [] }, some err)
  | (d, Except.ok abilityCsv) =>
  match CreateFile env d "./data".toList "ability-relations.csv".toList with
  | (d, Except.error err) => ({ disk := d, csvCalls := [] }, some err)
  | (d, Except.ok abilityRelCsv) =>
  match CreateFile env d "./data".toList "move-relations.csv".toList with
  | (d, Except.error err) => ({ disk := d, csvCalls := [] }, some err)
  | (d, Except.ok moveRelCsv) =>
  match csvStep env { disk := d, csvCalls := [] } movesCsv mr.CsvEntries with
  | (s, some err) => (s, some err)
  | (s, none) =>
  match csvStep env s pokemonCsv pr.CsvEntries with
  | (s, some err) => (s, some err)
  | (s, none) =>
  match csvStep env s abilityCsv ar.CsvEntries with
  | (s, some err) => (s, some err)
  | (s, none) =>
  match csvStep env s abilityRelCsv ar.GetCsvRelations with
  | (s, some err) => (s, some err)
  | (s, none) =>
  match csvStep env s moveRelCsv pr.GetCsvRelations with
  | (s, some err) => (s, some err)
  | (s, none) => (s, none)

/-! ## Notions used to state the properties -/

/-- A version-group locator is well formed for `getUrlID` when it splits on
the slash into at least seven pieces, so that piece 6 exists. -/
def wellFormedLocator (url : List Char) : Prop :=
  7 ≤ (Split '/' url).length

instance (url : List Char) : Decidable (wellFormedLocator url) := by
  unfold wellFormedLocator; infer_instance

/-- The selection rule of the specification for `getFlavorText`: the first
entry of language `lang` whose version group maps to `gen`; failing that the
first entry of language `lang`; failing that the empty string. -/
def selectFlavorText (gen : Int) (lang : List Char) (texts : List flavorText) : List Char :=
  match texts.find? (fun t =>
      decide (t.LanguageName = lang ∧ resolveVersionGroup t.VersionGroupUrl = some gen)) with
  | some t => sanitizeString t.Text
  | none =>
      match texts.find? (fun t => decide (t.LanguageName = lang)) with
      | some t => sanitizeString t.Text
      | none => []

/-- Whether an occurrence of `q` can overlap a copy of `r` that stands inside a
longer text: `q` lies inside `r`, or a proper non-empty initial part of `q` ends
`r`, or a proper non-empty final part of `q` starts `r`, or `r` lies strictly
inside `q`. -/
def Clash (q r : List Char) : Prop :=
  q <:+: r ∨ ∃ k, k < q.length ∧ (0 < k ∧
    (q.take k <:+ r ∨ q.drop k <+: r ∨ (r <+: q.drop k ∧ r.length < q.length - k)))

instance (q r : List Char) : Decidable (Clash q r) := by
  unfold Clash; infer_instance

/-- The search patterns and replacement texts of `sanitizeString`, in order. -/
def sanitizeRules : List (List Char × List Char) :=
  [("\n".toList, " ".toList), ("\u00ad".toList, "".toList), ("\u2019".toList, "'".toList),
   ("- ".toList, "-".toList),
   ("SPCL. ATK".toList, "Sp. Atk".toList), ("SPCL. DEF".toList, "Sp. Def".toList),
   ("SPCL.ATK".toList, "Sp. Atk".toList), ("SPCL.DEF".toList, "Sp. Def".toList),
   ("SP. ATK".toList, "Sp. Atk".toList), ("SP. DEF".toList, "Sp. Def".toList),
   ("ATTACK".toList, "Attack".toList), ("DEFENSE".toList, "Defense".toList),
   ("SPEED".toList, "Speed".toList), ("physi cal".toList, "physical".toList),
   ("criti cal".toList, "critical".toList)]

/-- Apply a list of replacements from left to right. -/
def applyRules (rs : List (List Char × List Char)) (s : List Char) : List Char :=
  rs.foldl (fun acc pr => ReplaceAll acc pr.1 pr.2) s

/-- The rule at position `i` of `rs` removes its pattern for good: the pattern
cannot overlap its own replacement text nor that of any later rule. -/
def ruleClean (rs : List (List Char × List Char)) (i : Nat) : Prop :=
  match rs.drop i with
  | [] => True
  | pr :: post => pr.1 ≠ [] ∧ ¬ Clash pr.1 pr.2 ∧ ∀ x ∈ post, x.1 ≠ [] ∧ ¬ Clash pr.1 x.2

instance (rs : List (List Char × List Char)) (i : Nat) : Decidable (ruleClean rs i) := by
  unfold ruleClean
  split <;> infer_instance

/-- The last path segment before the trailing slash of a locator, when the
locator ends in a slash and has one. -/
def trailingSegment (url : List Char) : Option (List Char) :=
  match (Split '/' url).reverse with
  | [] :: seg :: _ => some seg
  | _ => none

/-- The decimal numeral of an integer: its digits, after a minus sign when it
is negative. -/
def decimalNumeral : Int → List Char
  | Int.ofNat m => Nat.toDigits 10 m
  | Int.negSucc m => '-' :: Nat.toDigits 10 (m + 1)

/-- The version-group table of the specification: version-group ID and the
generation it belongs to. -/
def versionGroupTable : List (Int × Int) :=
  [(1, 1), (2, 1), (3, 2), (4, 2), (5, 3), (6, 3), (7, 3), (12, 3), (13, 3),
   (8, 4), (9, 4), (10, 4), (11, 5), (14, 5), (15, 6), (16, 6),
   (17, 7), (18, 7), (19, 7), (20, 8), (21, 8), (22, 8), (23, 8), (24, 8)]

/-- Lookup in the specification's table: the generation of a parsed ID that is
listed, `-1` for an unlisted ID and for an ID that did not parse. -/
def tableGeneration (parsed : Option Int) : Int :=
  match parsed with
  | none => -1
  | some id =>
      match versionGroupTable.find? (fun e => decide (e.1 = id)) with
      | some e => e.2
      | none => -1

/-- Lower-case roman numerals of 1 to 8. -/
def romanNumeral (n : Nat) : List Char :=
  match n with
  | 1 => "i".toList
  | 2 => "ii".toList
  | 3 => "iii".toList
  | 4 => "iv".toList
  | 5 => "v".toList
  | 6 => "vi".toList
  | 7 => "vii".toList
  | 8 => "viii".toList
  | _ => []

/-- Number of newline characters in a text: the number of lines it ends. -/
def lineCount (bytes : List Char) : Nat :=
  bytes.count '\n'

/-- The environment in which nothing fails. -/
def noFaults : Faults :=
  { openErr := false, writeErrAt := none, flushErr := false }

/-- The fan-out that the specification prescribes for the locators `urls`,
slots numbered from `i`: for each locator in order one `AddWorker`, then the
start of its fetch with the next slot index. -/
def taskCalls (lang : List Char) : Nat → List (List Char) → List Call
  | _, [] => []
  | i, url :: urls =>
      Call.AddWorker :: Call.GoFetchEntries url lang i :: taskCalls lang (i + 1) urls

/-- The fetch tasks started in a sequence of calls, in order: locator,
language and slot index of each. -/
def fetchStarts : List Call → List (List Char × List Char × Nat)
  | [] => []
  | Call.GoFetchEntries url lang index :: rest => (url, lang, index) :: fetchStarts rest
  | _ :: rest => fetchStarts rest

/-- The phases of the aggregator's protocol; `fetching r s` has seen `r`
registrations (`AddWorker`) and `s` task starts, `violated` is the error state. -/
inductive Phase where
  | uninitialized
  | fetching (registered started : Nat)
  | aggregated
  | postProcessed
  | violated
deriving DecidableEq, Repr

/-- One step of the protocol for a listing that declared `count` resources:
`Init(count)` comes first; a registration is accepted only when every
registered task has been started; a task start only right after its
registration; `Wait` only when `count` tasks have been registered and
started; `PostProcess` only after `Wait`. -/
def protocolStep (count : Int) : Phase → Call → Phase
  | Phase.uninitialized, Call.Init n => if n = count then Phase.fetching 0 0 else Phase.violated
  | Phase.fetching r s, Call.AddWorker => if r = s then Phase.fetching (r + 1) s else Phase.violated
  | Phase.fetching r s, Call.GoFetchEntries _ _ _ =>
      if r = s + 1 then Phase.fetching r (s + 1) else Phase.violated
  | Phase.fetching r s, Call.Wait =>
      if r = count.toNat ∧ s = count.toNat then Phase.aggregated else Phase.violated
  | Phase.aggregated, Call.PostProcess => Phase.postProcessed
  | _, _ => Phase.violated

/-- The phase reached by a sequence of calls, from `uninitialized`. -/
def protocol (count : Int) (calls : List Call) : Phase :=
  calls.foldl (protocolStep count) Phase.uninitialized

/-- The generation that the specification's table gives to the version group
of a locator: piece 6 of the locator parsed as an ID and looked up; `none`
when there is no piece 6, when it does not parse, or when the ID is not in the
table. -/
def knownGeneration (url : List Char) : Option Int :=
  match (Split '/' url).get? 6 with
  | none => none
  | some seg =>
      match Atoi seg with
      | none => none
      | some id => (versionGroupTable.find? (fun e => decide (e.1 = id))).map (fun e => e.2)

/-- The five `ToCsv` calls of `GenerateCsvs` in the order of the source, each
with the path of its file and its collection. -/
def csvPlan (pr : PokemonReceiver) (mr : MovesReceiver) (ar : AbilityReceiver) :
    List (List Char × List CsvEntry) :=
  [("data/moves.csv".toList, mr.CsvEntries),
   ("data/pokemon.csv".toList, pr.CsvEntries),
   ("data/ability.csv".toList, ar.CsvEntries),
   ("data/ability-relations.csv".toList, ar.GetCsvRelations),
   ("data/move-relations.csv".toList, pr.GetCsvRelations)]

/-- The environment of `GenerateCsvs` in which nothing fails. -/
def quietEnv : GenEnv :=
  { mkdirErr := false, createErr := fun _ => false, faults := fun _ => noFaults }

/-- A sequence of `ToCsv` calls in which the first non-nil error ends the
process, as `handleError` does. -/
def writeAll (env : GenEnv) : GenState → List (List Char × List CsvEntry) → GenState × Option Error
  | s, [] => (s, none)
  | s, (file, entries) :: rest =>
      match csvStep env s file entries with
      | (s1, some err) => (s1, some err)
      | (s1, none) => writeAll env s1 rest

/-- The error that a `ToCsv` call on an existing file returns: the
empty-input error for an empty collection, else the error of `os.OpenFile`,
else the error of the first failing `csv.Writer.Write` among the header and
the rows; `none` (nil) otherwise. -/
def csvResult (io : Faults) (entries : List CsvEntry) : Option Error :=
  if entries = [] then some Error.ErrEmptyCsv
  else if io.openErr = true then some Error.ErrOpen
  else
    match io.writeErrAt with
    | some k => if k ≤ entries.length then some Error.ErrWrite else none
    | none => none

/-! ## Theorems -/

/-! ### Flavor text selection -/

theorem getUrlID_isSome_of_wellFormed (url : List Char) (h : wellFormedLocator url) :
    ∃ id, getUrlID url = some id := by
  unfold wellFormedLocator at h
  unfold getUrlID
  have h6 : 6 < (Split '/' url).length := by omega
  rw [List.get?_eq_get h6]
  cases ha : Atoi ((Split '/' url).get ⟨6, h6⟩) with
  | none => exact ⟨-1, by simp only [ha]⟩
  | some id => exact ⟨id, by simp only [ha]⟩

theorem resolveVersionGroup_isSome_of_wellFormed (url : List Char)
    (h : wellFormedLocator url) : ∃ g, resolveVersionGroup url = some g := by
  obtain ⟨id, hid⟩ := getUrlID_isSome_of_wellFormed url h
  exact ⟨versionGroupSwitch id, by simp [resolveVersionGroup, hid]⟩

theorem getDefaultFlavorText_eq (lang : List Char) (texts : List flavorText) :
    getDefaultFlavorText lang texts =
      match texts.find? (fun t => decide (t.LanguageName = lang)) with
      | some t => sanitizeString t.Text
      | none => [] := by
  induction texts with
  | nil => rfl
  | cons t rest ih =>
      by_cases h : lang = t.LanguageName
      · simp [getDefaultFlavorText, List.find?, h]
      · have h2 : ¬ t.LanguageName = lang := fun e => h e.symm
        simp [getDefaultFlavorText, List.find?, h, h2, ih]

theorem flavorTextLoop_eq (gen : Int) (lang dflt : List Char) (texts : List flavorText)
    (hwf : ∀ t ∈ texts, wellFormedLocator t.VersionGroupUrl) :
    flavorTextLoop gen lang dflt texts =
      some (match texts.find? (fun t =>
          decide (t.LanguageName = lang ∧ resolveVersionGroup t.VersionGroupUrl = some gen)) with
        | some t => sanitizeString t.Text
        | none => dflt) := by
  induction texts with
  | nil => rfl
  | cons t rest ih =>
      obtain ⟨g, hg⟩ := resolveVersionGroup_isSome_of_wellFormed t.VersionGroupUrl
        (hwf t (List.mem_cons_self _ _))
      have ih2 := ih (fun u hu => hwf u (List.mem_cons_of_mem _ hu))
      by_cases h : gen = g ∧ lang = t.LanguageName
      · obtain ⟨h1, h2⟩ := h
        simp [flavorTextLoop, List.find?, hg, h1, h2]
      · have h3 : ¬ (t.LanguageName = lang ∧ g = gen) := fun e => h ⟨e.2.symm, e.1.symm⟩
        simp [flavorTextLoop, hg, h, ih2, List.find?, h3]

/-- C1. For every generation, language and list of flavor texts whose
version-group locators are well formed, `getFlavorText` returns (without
panicking) the sanitized text of the first entry that has the language and
whose version group resolves to the generation; when there is none, the
sanitized text of the first entry that has the language; when there is none
either, the empty string. -/
theorem getFlavorText_selects (gen : Int) (lang : List Char) (texts : List flavorText)
    (hwf : ∀ t ∈ texts, wellFormedLocator t.VersionGroupUrl) :
    getFlavorText gen lang texts = some (selectFlavorText gen lang texts) := by
  unfold getFlavorText selectFlavorText
  simp only [flavorTextLoop_eq gen lang _ texts hwf, getDefaultFlavorText_eq]

/-- C1 (witness). Three entries with well-formed locators: the Spanish one is
skipped, the first English one belongs to generation 1, the second English
one to generation 2 and is selected. -/
theorem getFlavorText_selects_witness :
    getFlavorText 2 "en".toList
      [⟨"uno".toList, "es".toList, "https://pokeapi.co/api/v2/version-group/3/".toList⟩,
       ⟨"one\nline".toList, "en".toList, "https://pokeapi.co/api/v2/version-group/1/".toList⟩,
       ⟨"two".toList, "en".toList, "https://pokeapi.co/api/v2/version-group/4/".toList⟩]
      = some "two".toList := by
  have h := getFlavorText_selects 2 "en".toList
      [⟨"uno".toList, "es".toList, "https://pokeapi.co/api/v2/version-group/3/".toList⟩,
       ⟨"one\nline".toList, "en".toList, "https://pokeapi.co/api/v2/version-group/1/".toList⟩,
       ⟨"two".toList, "en".toList, "https://pokeapi.co/api/v2/version-group/4/".toList⟩]
      (by decide)
  rw [h]
  decide

/-! ### `strings.ReplaceAll` -/

theorem replaceScan_nil (p r : List Char) (k : Nat) : replaceScan p r k [] = [] := by
  cases k <;> rfl

theorem replaceScan_skip (p r : List Char) (k : Nat) (s : List Char) :
    replaceScan p r k s = replaceScan p r 0 (s.drop k) := by
  induction k generalizing s with
  | zero => rfl
  | succ k ih =>
      cases s with
      | nil => simp [replaceScan_nil]
      | cons c cs => simp only [replaceScan, List.drop_succ_cons]; exact ih cs

theorem replaceScan_cons_of_no_match (p r : List Char) (c : Char) (cs : List Char)
    (h : ¬ p <+: c :: cs) :
    replaceScan p r 0 (c :: cs) = c :: replaceScan p r 0 cs := by
  have h2 : p.isPrefixOf (c :: cs) = false := by
    rw [Bool.eq_false_iff]; intro e; exact h (List.isPrefixOf_iff_prefix.mp e)
  simp [replaceScan, h2]

theorem replaceScan_append (p r : List Char) (hp : p ≠ []) (rest : List Char) :
    replaceScan p r 0 (p ++ rest) = r ++ replaceScan p r 0 rest := by
  cases p with
  | nil => exact absurd rfl hp
  | cons c p1 =>
      have h2 : (c :: p1).isPrefixOf (c :: (p1 ++ rest)) = true :=
        List.isPrefixOf_iff_prefix.mpr ⟨rest, rfl⟩
      rw [List.cons_append]
      simp only [replaceScan, h2, if_true]
      rw [replaceScan_skip]
      simp

theorem ReplaceAll_eq_scan (s p r : List Char) (hp : p ≠ []) :
    ReplaceAll s p r = replaceScan p r 0 s := by
  simp [ReplaceAll, hp]

/-- A pattern that does not occur is left alone. -/
theorem replaceScan_of_absent (p r : List Char) (s : List Char) (h : ¬ p <:+: s) :
    replaceScan p r 0 s = s := by
  induction s with
  | nil => rfl
  | cons c cs ih =>
      have h1 : ¬ p <+: c :: cs := fun e => h e.isInfix
      have h2 : ¬ p <:+: cs := fun e => h (List.infix_cons_iff.mpr (Or.inr e))
      rw [replaceScan_cons_of_no_match p r c cs h1, ih h2]

theorem replaceScan_length_le (p r : List Char) (hp : p ≠ []) (hlen : r.length ≤ p.length) :
    ∀ (n : Nat) (s : List Char), s.length ≤ n → (replaceScan p r 0 s).length ≤ s.length := by
  intro n
  induction n with
  | zero =>
      intro s hs
      have : s = [] := List.length_eq_zero.mp (by omega)
      subst this; simp [replaceScan]
  | succ n ih =>
      intro s hs
      cases s with
      | nil => simp [replaceScan]
      | cons c cs =>
          by_cases hpre : p <+: c :: cs
          · obtain ⟨rest, hrest⟩ := hpre
            have hpl : 0 < p.length := List.length_pos.mpr hp
            have hl : (c :: cs).length = p.length + rest.length := by
              rw [← hrest, List.length_append]
            rw [← hrest, replaceScan_append p r hp rest, List.length_append, List.length_append]
            have := ih rest (by omega)
            omega
          · rw [replaceScan_cons_of_no_match p r c cs hpre]
            have := ih cs (by simpa using hs)
            simp only [List.length_cons]; omega

theorem replaceScan_length_lt (p r : List Char) (hp : p ≠ []) (hlen : r.length < p.length) :
    ∀ (s : List Char), p <:+: s → (replaceScan p r 0 s).length < s.length := by
  intro s
  induction s with
  | nil =>
      intro h
      exact absurd (List.eq_nil_of_infix_nil h) hp
  | cons c cs ih =>
      intro h
      by_cases hpre : p <+: c :: cs
      · obtain ⟨rest, hrest⟩ := hpre
        rw [← hrest, replaceScan_append p r hp rest, List.length_append, List.length_append]
        have := replaceScan_length_le p r hp (by omega) rest.length rest (le_refl _)
        omega
      · rw [replaceScan_cons_of_no_match p r c cs hpre]
        have h2 : p <:+: cs := by
          rcases List.infix_cons_iff.mp h with h3 | h3
          · exact absurd h3 hpre
          · exact h3
        have := ih h2
        simp only [List.length_cons]; omega

theorem clash_of_split (q r t u : List Char) (hq : q = t ++ u) (ht : t ≠ []) (hu : u ≠ [])
    (h : t <:+ r ∨ u <+: r ∨ (r <+: u ∧ r.length < u.length)) : Clash q r := by
  right
  have htl : 0 < t.length := List.length_pos.mpr ht
  have hul : 0 < u.length := List.length_pos.mpr hu
  refine ⟨t.length, ?_, htl, ?_⟩
  · rw [hq, List.length_append]; omega
  · subst hq
    simp only [List.take_left', List.drop_left', List.length_append]
    rcases h with h | h | h
    · exact Or.inl h
    · exact Or.inr (Or.inl h)
    · exact Or.inr (Or.inr ⟨h.1, by omega⟩)

/-- An occurrence of `q` in `a ++ r ++ b` that does not overlap `r` lies in `a`
or in `b`. -/
theorem infix_of_no_clash (q r a b : List Char) (hc : ¬ Clash q r)
    (h : q <:+: a ++ (r ++ b)) : q <:+: a ∨ q <:+: b := by
  obtain ⟨x, y, hxy⟩ := h
  rw [List.append_assoc] at hxy
  rcases List.append_eq_append_iff.mp hxy with ⟨a1, ha, h1⟩ | ⟨c1, hx, h1⟩
  · -- the occurrence starts inside `a`
    rcases List.append_eq_append_iff.mp h1 with ⟨t, ht, _⟩ | ⟨c2, hq, h2⟩
    · exact Or.inl ⟨x, t, by rw [ha, ht, List.append_assoc]⟩
    · by_cases ha1 : a1 = []
      · subst ha1
        simp only [List.nil_append] at hq
        subst hq
        rcases List.append_eq_append_iff.mp h2 with ⟨t, ht, hb⟩ | ⟨t, ht, _⟩
        · by_cases hr : r = []
          · subst hr
            simp only [List.nil_append] at ht
            exact Or.inr ⟨[], y, by rw [hb, ← ht]; simp⟩
          · by_cases ht2 : t = []
            · subst ht2
              exact absurd (Or.inl ⟨[], [], by simp [ht]⟩) hc
            · exact absurd (clash_of_split _ r r t ht hr ht2 (Or.inl (List.suffix_refl r))) hc
        · exact absurd (Or.inl ⟨[], t, by simp [ht]⟩) hc
      · by_cases hc2 : c2 = []
        · subst hc2
          exact Or.inl ⟨x, [], by rw [ha, hq]; simp⟩
        · rcases List.append_eq_append_iff.mp h2 with ⟨t, ht, _⟩ | ⟨t, ht, _⟩
          · by_cases ht2 : t = []
            · subst ht2
              exact absurd (clash_of_split _ r a1 c2 hq ha1 hc2
                (Or.inr (Or.inl ⟨[], by simp [ht]⟩))) hc
            · refine absurd (clash_of_split _ r a1 c2 hq ha1 hc2
                (Or.inr (Or.inr ⟨⟨t, ht.symm⟩, ?_⟩))) hc
              rw [ht, List.length_append]
              have := List.length_pos.mpr ht2
              omega
          · exact absurd (clash_of_split _ r a1 c2 hq ha1 hc2 (Or.inr (Or.inl ⟨t, ht.symm⟩))) hc
  · -- the occurrence starts at or after the start of `r`
    rcases List.append_eq_append_iff.mp h1 with ⟨t, _, hb⟩ | ⟨t, ht, h2⟩
    · exact Or.inr ⟨t, y, by rw [hb, List.append_assoc]⟩
    · rcases List.append_eq_append_iff.mp h2 with ⟨u, hu, _⟩ | ⟨u, hq, hb⟩
      · exact absurd (Or.inl ⟨c1, u, by rw [ht, hu, List.append_assoc]⟩) hc
      · by_cases ht2 : t = []
        · subst ht2
          exact Or.inr ⟨[], y, by rw [hb, hq]; simp⟩
        · by_cases hu2 : u = []
          · subst hu2
            exact absurd (Or.inl ⟨c1, [], by rw [ht, hq]; simp⟩) hc
          · exact absurd (clash_of_split _ r t u hq ht2 hu2 (Or.inl ⟨c1, ht.symm⟩)) hc

theorem exists_start_of_occurrence (q w s : List Char) (hq : q ≠ []) (h : q <:+: w) :
    ∃ w2, w2 <:+ w ∧ w2 ≠ [] ∧ q <+: w2 ++ s := by
  obtain ⟨x, y, hxy⟩ := h
  refine ⟨q ++ y, ⟨x, by rw [← hxy, List.append_assoc]⟩, by simp [hq], ⟨y ++ s, by simp⟩⟩

/-- Where an occurrence of `q` in `w ++ scan s` comes from, when `q` cannot
overlap the replacement text `r`: it starts inside `w` in `w ++ s`, or it occurs
in `s` and `q` is not the search pattern. -/
theorem occurrence_after_scan (p r q : List Char) (hp : p ≠ []) (hq : q ≠ [])
    (hc : ¬ Clash q r) :
    ∀ (n : Nat) (s w : List Char), s.length ≤ n → q <:+: w ++ replaceScan p r 0 s →
      (∃ w2, w2 <:+ w ∧ w2 ≠ [] ∧ q <+: w2 ++ s) ∨ (q <:+: s ∧ q ≠ p) := by
  intro n
  induction n with
  | zero =>
      intro s w hs h
      have : s = [] := List.length_eq_zero.mp (by omega)
      subst this
      simp only [replaceScan, List.append_nil] at h
      exact Or.inl (exists_start_of_occurrence q w [] hq h)
  | succ n ih =>
      intro s w hs h
      cases s with
      | nil =>
          simp only [replaceScan, List.append_nil] at h
          exact Or.inl (exists_start_of_occurrence q w [] hq h)
      | cons c cs =>
          by_cases hpre : p <+: c :: cs
          · obtain ⟨rest, hrest⟩ := hpre
            have hpl : 0 < p.length := List.length_pos.mpr hp
            have hl : (c :: cs).length = p.length + rest.length := by
              rw [← hrest, List.length_append]
            rw [← hrest, replaceScan_append p r hp rest] at h
            rw [← hrest]
            rcases infix_of_no_clash q r w _ hc h with h1 | h1
            · exact Or.inl (exists_start_of_occurrence q w _ hq h1)
            · have h2 := ih rest [] (by omega) (by simpa using h1)
              rcases h2 with ⟨w2, hsuf, hne, _⟩ | ⟨h3, h4⟩
              · exact absurd (List.eq_nil_of_suffix_nil hsuf) hne
              · exact Or.inr ⟨h3.trans (List.suffix_append p rest).isInfix, h4⟩
          · rw [replaceScan_cons_of_no_match p r c cs hpre] at h
            have h0 : q <:+: (w ++ [c]) ++ replaceScan p r 0 cs := by simpa using h
            rcases ih cs (w ++ [c]) (by simpa using hs) h0 with ⟨w2, hsuf, hne, hpre2⟩ | ⟨h3, h4⟩
            · obtain ⟨x, hx⟩ := hsuf
              have hw2 : ∃ a1, a1 <:+ w ∧ w2 = a1 ++ [c] := by
                rcases List.append_eq_append_iff.mp hx with ⟨a1, ha, hb⟩ | ⟨c1, _, hb⟩
                · exact ⟨a1, ⟨x, ha.symm⟩, hb⟩
                · have hlen := congrArg List.length hb
                  simp only [List.length_cons, List.length_nil, List.length_append] at hlen
                  have h2l : 0 < w2.length := List.length_pos.mpr hne
                  have : c1 = [] := List.length_eq_zero.mp (by omega)
                  subst this
                  exact ⟨[], List.nil_suffix, by simpa using hb.symm⟩
              obtain ⟨a1, ha1, rfl⟩ := hw2
              have hpre3 : q <+: a1 ++ c :: cs := by simpa using hpre2
              by_cases ha : a1 = []
              · subst ha
                refine Or.inr ⟨?_, ?_⟩
                · exact List.IsPrefix.isInfix (by simpa using hpre3)
                · intro e
                  subst e
                  exact hpre (by simpa using hpre3)
              · exact Or.inl ⟨a1, ha1, ha, hpre3⟩
            · exact Or.inr ⟨List.infix_cons h3, h4⟩

/-- A replacement does not leave its own search pattern behind, when the
pattern cannot overlap the replacement text. -/
theorem absent_after_ReplaceAll (s p r : List Char) (hp : p ≠ []) (hc : ¬ Clash p r) :
    ¬ p <:+: ReplaceAll s p r := by
  rw [ReplaceAll_eq_scan s p r hp]
  intro h
  rcases occurrence_after_scan p r p hp hp hc s.length s [] (le_refl _) (by simpa using h) with
    ⟨w2, hsuf, hne, _⟩ | ⟨_, h4⟩
  · exact hne (List.eq_nil_of_suffix_nil hsuf)
  · exact h4 rfl

/-- A replacement does not create an occurrence of a text `q` that cannot
overlap the replacement text. -/
theorem absent_preserved (s p r q : List Char) (hp : p ≠ []) (hq : q ≠ [])
    (hc : ¬ Clash q r) (h : ¬ q <:+: s) : ¬ q <:+: ReplaceAll s p r := by
  rw [ReplaceAll_eq_scan s p r hp]
  intro h1
  rcases occurrence_after_scan p r q hp hq hc s.length s [] (le_refl _) (by simpa using h1) with
    ⟨w2, hsuf, hne, _⟩ | ⟨h3, _⟩
  · exact hne (List.eq_nil_of_suffix_nil hsuf)
  · exact h h3

theorem ReplaceAll_of_absent (s p r : List Char) (hp : p ≠ []) (h : ¬ p <:+: s) :
    ReplaceAll s p r = s := by
  rw [ReplaceAll_eq_scan s p r hp, replaceScan_of_absent p r s h]

theorem sanitizeString_eq_applyRules (s : List Char) :
    sanitizeString s = applyRules sanitizeRules s := by
  simp only [sanitizeString, applyRules, sanitizeRules, List.foldl_cons, List.foldl_nil]

theorem applyRules_append (rs1 rs2 : List (List Char × List Char)) (s : List Char) :
    applyRules (rs1 ++ rs2) s = applyRules rs2 (applyRules rs1 s) := by
  simp [applyRules, List.foldl_append]

theorem absent_applyRules (rs : List (List Char × List Char)) (q : List Char) (hq : q ≠ [])
    (h : ∀ x ∈ rs, x.1 ≠ [] ∧ ¬ Clash q x.2) :
    ∀ s : List Char, ¬ q <:+: s → ¬ q <:+: applyRules rs s := by
  induction rs with
  | nil => intro s hs; exact hs
  | cons pr rest ih =>
      intro s hs
      have h1 := h pr (List.mem_cons_self _ _)
      exact ih (fun x hx => h x (List.mem_cons_of_mem _ hx)) _
        (absent_preserved s pr.1 pr.2 q h1.1 hq h1.2 hs)

theorem absent_of_ruleClean (rs : List (List Char × List Char)) (i : Nat) (hi : i < rs.length)
    (h : ruleClean rs i) (s : List Char) : ¬ (rs.get ⟨i, hi⟩).1 <:+: applyRules rs s := by
  have hsplit : rs = rs.take i ++ rs.get ⟨i, hi⟩ :: rs.drop (i + 1) := by
    rw [List.get_eq_getElem, ← List.drop_eq_getElem_cons hi, List.take_append_drop]
  have hdrop : rs.drop i = rs.get ⟨i, hi⟩ :: rs.drop (i + 1) := by
    rw [List.get_eq_getElem, ← List.drop_eq_getElem_cons hi]
  unfold ruleClean at h
  rw [hdrop] at h
  obtain ⟨h1, h2, h3⟩ := h
  have happ : applyRules rs s = applyRules (rs.drop (i + 1))
      (ReplaceAll (applyRules (rs.take i) s) (rs.get ⟨i, hi⟩).1 (rs.get ⟨i, hi⟩).2) := by
    conv_lhs => rw [hsplit]
    rw [applyRules_append]
    rfl
  rw [happ]
  exact absent_applyRules _ _ h1 h3 _ (absent_after_ReplaceAll _ _ _ h1 h2)

theorem applyRules_of_absent (rs : List (List Char × List Char)) (t : List Char)
    (h : ∀ x ∈ rs, x.1 ≠ [] ∧ ¬ x.1 <:+: t) : applyRules rs t = t := by
  induction rs with
  | nil => rfl
  | cons pr rest ih =>
      have h1 := h pr (List.mem_cons_self _ _)
      show applyRules rest (ReplaceAll t pr.1 pr.2) = t
      rw [ReplaceAll_of_absent t pr.1 pr.2 h1.1 h1.2]
      exact ih (fun x hx => h x (List.mem_cons_of_mem _ hx))

theorem sanitizeRules_clean : ∀ i : Fin 15, i.val ≠ 3 → ruleClean sanitizeRules i.val := by
  decide

theorem applyRules_length_le (rs : List (List Char × List Char))
    (h : ∀ x ∈ rs, x.1 ≠ [] ∧ x.2.length ≤ x.1.length) :
    ∀ s : List Char, (applyRules rs s).length ≤ s.length := by
  induction rs with
  | nil => intro s; exact le_refl _
  | cons pr rest ih =>
      intro s
      have h1 := h pr (List.mem_cons_self _ _)
      have h2 := ih (fun x hx => h x (List.mem_cons_of_mem _ hx)) (ReplaceAll s pr.1 pr.2)
      have h3 : (ReplaceAll s pr.1 pr.2).length ≤ s.length := by
        rw [ReplaceAll_eq_scan s pr.1 pr.2 h1.1]
        exact replaceScan_length_le pr.1 pr.2 h1.1 h1.2 s.length s (le_refl _)
      exact le_trans h2 h3

/-- Every search pattern of `sanitizeString` other than the hyphen followed by
a space is absent from every output of `sanitizeString`. -/
theorem sanitizeString_patterns_absent (s : List Char) :
    ∀ x ∈ sanitizeRules, x.1 ≠ "- ".toList → ¬ x.1 <:+: sanitizeString s := by
  intro x hx hne
  obtain ⟨i, hi⟩ := List.mem_iff_get.mp hx
  have hlen : sanitizeRules.length = 15 := rfl
  by_cases h3 : i.val = 3
  · exfalso
    apply hne
    have : i = ⟨3, by rw [hlen]; decide⟩ := Fin.ext h3
    rw [← hi, this]
    rfl
  · have hc := sanitizeRules_clean ⟨i.val, by rw [← hlen]; exact i.isLt⟩ h3
    rw [← hi, sanitizeString_eq_applyRules]
    exact absent_of_ruleClean sanitizeRules i.val i.isLt hc s

theorem sanitizeString_fixed_of_absent (t : List Char)
    (h : ∀ x ∈ sanitizeRules, ¬ x.1 <:+: t) : sanitizeString t = t := by
  rw [sanitizeString_eq_applyRules]
  have hne : ∀ x ∈ sanitizeRules, x.1 ≠ [] := by decide
  exact applyRules_of_absent sanitizeRules t (fun x hx => ⟨hne x hx, h x hx⟩)

theorem applyRules_cons (pr : List Char × List Char) (rest : List (List Char × List Char))
    (s : List Char) : applyRules (pr :: rest) s = applyRules rest (ReplaceAll s pr.1 pr.2) :=
  rfl

/-- A text that is free of the first three patterns but contains a hyphen
followed by a space gets shorter under `sanitizeString`. -/
theorem sanitizeString_length_lt (t : List Char)
    (habs : ∀ x ∈ sanitizeRules.take 3, ¬ x.1 <:+: t)
    (hocc : "- ".toList <:+: t) : (sanitizeString t).length < t.length := by
  have hsplit : sanitizeRules =
      sanitizeRules.take 3 ++ ("- ".toList, "-".toList) :: sanitizeRules.drop 4 := by decide
  have hne : ∀ y ∈ sanitizeRules.take 3, y.1 ≠ [] := by decide
  have h1 : applyRules (sanitizeRules.take 3) t = t :=
    applyRules_of_absent _ t (fun x hx => ⟨hne x hx, habs x hx⟩)
  have h2 : sanitizeString t = applyRules (sanitizeRules.drop 4)
      (ReplaceAll t "- ".toList "-".toList) := by
    rw [sanitizeString_eq_applyRules]
    conv_lhs => rw [hsplit]
    rw [applyRules_append, h1, applyRules_cons]
  have hp : "- ".toList ≠ [] := by decide
  have h3 : (ReplaceAll t "- ".toList "-".toList).length < t.length := by
    rw [ReplaceAll_eq_scan t "- ".toList "-".toList hp]
    exact replaceScan_length_lt "- ".toList "-".toList hp (by decide) t hocc
  have hle : ∀ x ∈ sanitizeRules.drop 4, x.1 ≠ [] ∧ x.2.length ≤ x.1.length := by decide
  have h4 := applyRules_length_le (sanitizeRules.drop 4) hle (ReplaceAll t "- ".toList "-".toList)
  rw [h2]
  omega

/-- C2 (amended). Applying `sanitizeString` to one of its outputs changes
nothing exactly when that output contains no hyphen directly followed by a
space. -/
theorem sanitizeString_idempotent_iff (s : List Char) :
    sanitizeString (sanitizeString s) = sanitizeString s ↔
      ¬ "- ".toList <:+: sanitizeString s := by
  have habs := sanitizeString_patterns_absent s
  generalize sanitizeString s = t at habs ⊢
  constructor
  · intro hfix hocc
    have hne : ∀ y ∈ sanitizeRules.take 3, y.1 ≠ "- ".toList := by decide
    have h1 := sanitizeString_length_lt t
      (fun x hx => habs x (List.mem_of_mem_take hx) (hne x hx)) hocc
    rw [hfix] at h1
    exact lt_irrefl _ h1
  · intro hno
    apply sanitizeString_fixed_of_absent
    intro x hx
    by_cases hx4 : x.1 = "- ".toList
    · rw [hx4]; exact hno
    · exact habs x hx hx4

/-- C2 (counterexample). On a hyphen followed by two spaces a second
application still changes the text. -/
theorem sanitizeString_not_idempotent :
    sanitizeString (sanitizeString "a-  b".toList) ≠ sanitizeString "a-  b".toList := by
  decide

/-- C2 (witness of the amended statement): a text on which the second
application changes nothing. -/
theorem sanitizeString_idempotent_iff_witness :
    sanitizeString (sanitizeString "SP. ATK rises".toList) = sanitizeString "SP. ATK rises".toList :=
  (sanitizeString_idempotent_iff "SP. ATK rises".toList).mpr (by decide)

/-! ### Locators and generations -/

theorem digitChar_toNat : ∀ k : Fin 10, (Nat.digitChar k.val).toNat = 48 + k.val := by
  decide

theorem atoiDigits_append (xs ys : List Char) (n : Nat) :
    atoiDigits (xs ++ ys) n = (atoiDigits xs n).bind (atoiDigits ys) := by
  induction xs generalizing n with
  | nil => rfl
  | cons c cs ih =>
      by_cases h : 48 ≤ c.toNat ∧ c.toNat ≤ 57
      · simp [atoiDigits, h, ih]
      · simp [atoiDigits, h]

theorem toDigitsCore_append (fuel n : Nat) (ds : List Char) :
    Nat.toDigitsCore 10 fuel n ds = Nat.toDigitsCore 10 fuel n [] ++ ds := by
  induction fuel generalizing n ds with
  | zero => simp [Nat.toDigitsCore]
  | succ fuel ih =>
      simp only [Nat.toDigitsCore]
      split
      · simp
      · rw [ih (n / 10) (_ :: ds), ih (n / 10) [_]]
        simp

theorem atoiDigits_toDigitsCore (fuel : Nat) :
    ∀ n : Nat, n < fuel → atoiDigits (Nat.toDigitsCore 10 fuel n []) 0 = some n := by
  induction fuel with
  | zero => intro n h; omega
  | succ fuel ih =>
      intro n h
      have hd := digitChar_toNat ⟨n % 10, Nat.mod_lt _ (by decide)⟩
      simp only at hd
      simp only [Nat.toDigitsCore]
      split
      · rename_i h0
        simp [atoiDigits, hd]
        omega
      · rename_i h0
        rw [toDigitsCore_append, atoiDigits_append, ih (n / 10) (by omega)]
        simp [atoiDigits, hd]
        omega

theorem atoiDigits_toDigits (n : Nat) : atoiDigits (Nat.toDigits 10 n) 0 = some n :=
  atoiDigits_toDigitsCore (n + 1) n (Nat.lt_succ_self n)

theorem toDigits_ne_nil (n : Nat) : Nat.toDigits 10 n ≠ [] := by
  unfold Nat.toDigits
  simp only [Nat.toDigitsCore]
  split
  · simp
  · rw [toDigitsCore_append]; simp

theorem Atoi_of_atoiDigits (ds : List Char) (n : Nat) (hne : ds ≠ [])
    (h : atoiDigits ds 0 = some n) (hn : n < 2 ^ 63) : Atoi ds = some (n : Int) := by
  cases ds with
  | nil => exact absurd rfl hne
  | cons c cs =>
      have hc : 48 ≤ c.toNat ∧ c.toNat ≤ 57 := by
        by_contra hcon
        simp [atoiDigits, hcon] at h
      have h1 : c ≠ '-' := by
        intro e; subst e; revert hc; decide
      have h2 : c ≠ '+' := by
        intro e; subst e; revert hc; decide
      have hn2 : n < 9223372036854775808 := by norm_num at hn; exact hn
      simp [Atoi, h1, h2, h, hn2]

/-- `strconv.Atoi` reads back the decimal numeral of every `n < 2^63`. -/
theorem Atoi_toDigits (n : Nat) (hn : n < 2 ^ 63) :
    Atoi (Nat.toDigits 10 n) = some (n : Int) :=
  Atoi_of_atoiDigits _ n (toDigits_ne_nil n) (atoiDigits_toDigits n) hn

/-- `strconv.Atoi` reads back the decimal numeral of every 64-bit integer. -/
theorem Atoi_decimalNumeral (n : Int) (hlo : -(2 ^ 63) ≤ n) (hhi : n < 2 ^ 63) :
    Atoi (decimalNumeral n) = some n := by
  cases n with
  | ofNat m =>
      have hm : m < 2 ^ 63 := by
        have : (m : Int) < 2 ^ 63 := hhi
        exact_mod_cast this
      exact Atoi_toDigits m hm
  | negSucc m =>
      have hm : m + 1 ≤ 9223372036854775808 := by
        have h1 : -(2 ^ 63 : Int) ≤ Int.negSucc m := hlo
        rw [Int.negSucc_eq] at h1
        norm_num at h1
        omega
      have hne := toDigits_ne_nil (m + 1)
      have hd := atoiDigits_toDigits (m + 1)
      simp only [decimalNumeral, Atoi]
      simp [hne, hd, hm, Int.negSucc_eq]

/-- C3 (counterexample). A locator with two more path segments than the
PokeAPI shape: its last segment before the trailing slash is the numeral of
7, and `getUrlID` returns 25.  And a locator of the PokeAPI shape whose
trailing numeral is 2^63: `getUrlID` returns -1. -/
theorem getUrlID_misses_trailing_id :
    (trailingSegment "https://pokeapi.co/api/v2/pokemon/25/encounters/7/".toList
        = some (decimalNumeral 7) ∧
      getUrlID "https://pokeapi.co/api/v2/pokemon/25/encounters/7/".toList = some 25) ∧
    (trailingSegment "https://pokeapi.co/api/v2/pokemon/9223372036854775808/".toList
        = some (decimalNumeral 9223372036854775808) ∧
      getUrlID "https://pokeapi.co/api/v2/pokemon/9223372036854775808/".toList = some (-1)) := by
  decide

theorem getUrlID_of_piece (url seg : List Char) (h : (Split '/' url).get? 6 = some seg) :
    getUrlID url = some (match Atoi seg with | none => -1 | some id => id) := by
  unfold getUrlID
  rw [h]
  show (match Atoi seg with | none => some (-1) | some id => some id) = _
  cases Atoi seg <;> rfl

theorem piece_six_of_trailing (url seg : List Char) (hlen : (Split '/' url).length = 8)
    (htrail : trailingSegment url = some seg) : (Split '/' url).get? 6 = some seg := by
  unfold trailingSegment at htrail
  generalize Split '/' url = l at hlen htrail
  have hrev : l = l.reverse.reverse := (List.reverse_reverse l).symm
  match hr : l.reverse, htrail with
  | [] :: seg2 :: rest, ht =>
      simp only [Option.some.injEq] at ht
      subst ht
      rw [hrev, hr]
      have hl : rest.length = 6 := by
        have := congrArg List.length hr
        simp only [List.length_reverse, List.length_cons, hlen] at this
        omega
      simp only [List.reverse_cons, List.append_assoc, List.singleton_append]
      rw [List.get?_eq_getElem?, List.getElem?_append_right (by simp [hl])]
      simp [hl]

/-- C3 (amended). For a locator of the PokeAPI shape, eight pieces between
slashes, whose last path segment before the trailing slash is the decimal
numeral of an integer `n` with `-2^63 ≤ n < 2^63`, `getUrlID` returns `n`. -/
theorem getUrlID_trailing_id (url : List Char) (n : Int)
    (hlen : (Split '/' url).length = 8)
    (htrail : trailingSegment url = some (decimalNumeral n))
    (hlo : -(2 ^ 63) ≤ n) (hhi : n < 2 ^ 63) : getUrlID url = some n := by
  rw [getUrlID_of_piece url _ (piece_six_of_trailing url _ hlen htrail),
    Atoi_decimalNumeral n hlo hhi]

/-- C3 (witness). -/
theorem getUrlID_trailing_id_witness :
    getUrlID "https://pokeapi.co/api/v2/pokemon/25/".toList = some 25 :=
  getUrlID_trailing_id "https://pokeapi.co/api/v2/pokemon/25/".toList 25
    (by decide) (by decide) (by decide) (by decide)

/-- C4 (failing inputs). On the empty string, and on a locator with fewer than
seven pieces, `getUrlID` panics instead of returning -1. -/
theorem getUrlID_panics_on_short :
    getUrlID "".toList = none ∧ getUrlID "/api/v2/pokemon/25/".toList = none := by
  decide

theorem getOriginGeneration_gen1 (id : Int) (h2 : id ≤ 151) :
    getOriginGeneration id = 1 := by
  unfold getOriginGeneration; rw [if_pos h2]

theorem getOriginGeneration_gen2 (id : Int) (h1 : 152 ≤ id) (h2 : id ≤ 251) :
    getOriginGeneration id = 2 := by
  unfold getOriginGeneration; split_ifs <;> omega

theorem getOriginGeneration_gen3 (id : Int) (h1 : 252 ≤ id) (h2 : id ≤ 386) :
    getOriginGeneration id = 3 := by
  unfold getOriginGeneration; split_ifs <;> omega

theorem getOriginGeneration_gen4 (id : Int) (h1 : 387 ≤ id) (h2 : id ≤ 493) :
    getOriginGeneration id = 4 := by
  unfold getOriginGeneration; split_ifs <;> omega

theorem getOriginGeneration_gen5 (id : Int) (h1 : 494 ≤ id) (h2 : id ≤ 649) :
    getOriginGeneration id = 5 := by
  unfold getOriginGeneration; split_ifs <;> omega

theorem getOriginGeneration_gen6 (id : Int) (h1 : 650 ≤ id) (h2 : id ≤ 721) :
    getOriginGeneration id = 6 := by
  unfold getOriginGeneration; split_ifs <;> omega

theorem getOriginGeneration_gen7 (id : Int) (h1 : 722 ≤ id) (h2 : id ≤ 809) :
    getOriginGeneration id = 7 := by
  unfold getOriginGeneration; split_ifs <;> omega

theorem getOriginGeneration_gen8 (id : Int) (h1 : 810 ≤ id) (h2 : id ≤ 905) :
    getOriginGeneration id = 8 := by
  unfold getOriginGeneration; split_ifs <;> omega

theorem getOriginGeneration_beyond (id : Int) (h : 905 < id) : getOriginGeneration id = 0 := by
  unfold getOriginGeneration; split_ifs <;> omega

/-- C5. `getOriginGeneration` follows the ascending inclusive breakpoints
151, 251, 386, 493, 649, 721, 809, 905: ids 1..151 give 1, 152..251 give 2,
252..386 give 3, 387..493 give 4, 494..649 give 5, 650..721 give 6, 722..809
give 7, 810..905 give 8, every id above 905 gives 0; and the four concrete
cases. -/
theorem getOriginGeneration_ranges (id : Int) :
    (1 ≤ id ∧ id ≤ 151 → getOriginGeneration id = 1) ∧
    (152 ≤ id ∧ id ≤ 251 → getOriginGeneration id = 2) ∧
    (252 ≤ id ∧ id ≤ 386 → getOriginGeneration id = 3) ∧
    (387 ≤ id ∧ id ≤ 493 → getOriginGeneration id = 4) ∧
    (494 ≤ id ∧ id ≤ 649 → getOriginGeneration id = 5) ∧
    (650 ≤ id ∧ id ≤ 721 → getOriginGeneration id = 6) ∧
    (722 ≤ id ∧ id ≤ 809 → getOriginGeneration id = 7) ∧
    (810 ≤ id ∧ id ≤ 905 → getOriginGeneration id = 8) ∧
    (905 < id → getOriginGeneration id = 0) ∧
    getOriginGeneration 1 = 1 ∧ getOriginGeneration 151 = 1 ∧
    getOriginGeneration 152 = 2 ∧ getOriginGeneration 1000 = 0 :=
  ⟨fun h => getOriginGeneration_gen1 id h.2,
   fun h => getOriginGeneration_gen2 id h.1 h.2,
   fun h => getOriginGeneration_gen3 id h.1 h.2,
   fun h => getOriginGeneration_gen4 id h.1 h.2,
   fun h => getOriginGeneration_gen5 id h.1 h.2,
   fun h => getOriginGeneration_gen6 id h.1 h.2,
   fun h => getOriginGeneration_gen7 id h.1 h.2,
   fun h => getOriginGeneration_gen8 id h.1 h.2,
   fun h => getOriginGeneration_beyond id h,
   by decide, by decide, by decide, by decide⟩

theorem versionGroupSwitch_eq_table (id : Int) :
    versionGroupSwitch id = tableGeneration (some id) := by
  by_cases h : 1 ≤ id ∧ id ≤ 24
  · obtain ⟨h1, h2⟩ := h
    interval_cases id <;> decide
  · have hsw : versionGroupSwitch id = -1 := by
      unfold versionGroupSwitch; split_ifs <;> omega
    have htab : versionGroupTable.find? (fun e => decide (e.1 = id)) = none := by
      rw [List.find?_eq_none]
      intro e he
      have hk : 1 ≤ e.1 ∧ e.1 ≤ 24 := by
        revert e; decide
      simp only [decide_eq_true_eq]
      omega
    simp only [tableGeneration, htab, hsw]

theorem tableGeneration_range (parsed : Option Int) :
    tableGeneration parsed = -1 ∨ (1 ≤ tableGeneration parsed ∧ tableGeneration parsed ≤ 8) := by
  cases parsed with
  | none => exact Or.inl rfl
  | some id =>
      cases hf : versionGroupTable.find? (fun e => decide (e.1 = id)) with
      | none =>
          left
          simp only [tableGeneration, hf]
      | some e =>
          have he := List.mem_of_find?_eq_some hf
          have hk : ∀ x ∈ versionGroupTable, 1 ≤ x.2 ∧ x.2 ≤ 8 := by decide
          right
          simp only [tableGeneration, hf]
          exact hk e he

/-- C6. For every locator with at least seven pieces between slashes,
`resolveVersionGroup` returns (without panicking) the generation that the
fixed table gives for the ID parsed from piece 6, and -1 when that ID is not
in the table or the piece does not parse; the result is -1 or in 1..8. -/
theorem resolveVersionGroup_table (url : List Char) (h : 7 ≤ (Split '/' url).length) :
    ∃ seg, (Split '/' url).get? 6 = some seg ∧
      resolveVersionGroup url = some (tableGeneration (Atoi seg)) ∧
      (tableGeneration (Atoi seg) = -1 ∨
        (1 ≤ tableGeneration (Atoi seg) ∧ tableGeneration (Atoi seg) ≤ 8)) := by
  have h6 : 6 < (Split '/' url).length := by omega
  refine ⟨(Split '/' url).get ⟨6, h6⟩, List.get?_eq_get h6, ?_, tableGeneration_range _⟩
  unfold resolveVersionGroup
  rw [getUrlID_of_piece url _ (List.get?_eq_get h6)]
  cases ha : Atoi ((Split '/' url).get ⟨6, h6⟩) with
  | none => rfl
  | some id => simp only [versionGroupSwitch_eq_table]

/-- C6 (witness). -/
theorem resolveVersionGroup_table_witness :
    ∃ seg, (Split '/' "https://pokeapi.co/api/v2/version-group/12/".toList).get? 6 = some seg ∧
      resolveVersionGroup "https://pokeapi.co/api/v2/version-group/12/".toList
        = some (tableGeneration (Atoi seg)) ∧
      (tableGeneration (Atoi seg) = -1 ∨
        (1 ≤ tableGeneration (Atoi seg) ∧ tableGeneration (Atoi seg) ≤ 8)) :=
  resolveVersionGroup_table "https://pokeapi.co/api/v2/version-group/12/".toList (by decide)

theorem getGeneration_eq_1_iff (name : List Char) :
    getGeneration name = 1 ↔ name = "generation-i".toList := by
  constructor
  · intro h
    unfold getGeneration at h
    by_cases g1 : name = "generation-i".toList
    · rw [if_pos g1] at h; exact g1
    rw [if_neg g1] at h
    by_cases g2 : name = "generation-ii".toList
    · rw [if_pos g2] at h; exact absurd h (by decide)
    rw [if_neg g2] at h
    by_cases g3 : name = "generation-iii".toList
    · rw [if_pos g3] at h; exact absurd h (by decide)
    rw [if_neg g3] at h
    by_cases g4 : name = "generation-iv".toList
    · rw [if_pos g4] at h; exact absurd h (by decide)
    rw [if_neg g4] at h
    by_cases g5 : name = "generation-v".toList
    · rw [if_pos g5] at h; exact absurd h (by decide)
    rw [if_neg g5] at h
    by_cases g6 : name = "generation-vi".toList
    · rw [if_pos g6] at h; exact absurd h (by decide)
    rw [if_neg g6] at h
    by_cases g7 : name = "generation-vii".toList
    · rw [if_pos g7] at h; exact absurd h (by decide)
    rw [if_neg g7] at h
    by_cases g8 : name = "generation-viii".toList
    · rw [if_pos g8] at h; exact absurd h (by decide)
    rw [if_neg g8] at h
    exact absurd h (by decide)
  · intro h
    subst h
    decide

theorem getGeneration_eq_2_iff (name : List Char) :
    getGeneration name = 2 ↔ name = "generation-ii".toList := by
  constructor
  · intro h
    unfold getGeneration at h
    by_cases g1 : name = "generation-i".toList
    · rw [if_pos g1] at h; exact absurd h (by decide)
    rw [if_neg g1] at h
    by_cases g2 : name = "generation-ii".toList
    · rw [if_pos g2] at h; exact g2
    rw [if_neg g2] at h
    by_cases g3 : name = "generation-iii".toList
    · rw [if_pos g3] at h; exact absurd h (by decide)
    rw [if_neg g3] at h
    by_cases g4 : name = "generation-iv".toList
    · rw [if_pos g4] at h; exact absurd h (by decide)
    rw [if_neg g4] at h
    by_cases g5 : name = "generation-v".toList
    · rw [if_pos g5] at h; exact absurd h (by decide)
    rw [if_neg g5] at h
    by_cases g6 : name = "generation-vi".toList
    · rw [if_pos g6] at h; exact absurd h (by decide)
    rw [if_neg g6] at h
    by_cases g7 : name = "generation-vii".toList
    · rw [if_pos g7] at h; exact absurd h (by decide)
    rw [if_neg g7] at h
    by_cases g8 : name = "generation-viii".toList
    · rw [if_pos g8] at h; exact absurd h (by decide)
    rw [if_neg g8] at h
    exact absurd h (by decide)
  · intro h
    subst h
    decide

theorem getGeneration_eq_3_iff (name : List Char) :
    getGeneration name = 3 ↔ name = "generation-iii".toList := by
  constructor
  · intro h
    unfold getGeneration at h
    by_cases g1 : name = "generation-i".toList
    · rw [if_pos g1] at h; exact absurd h (by decide)
    rw [if_neg g1] at h
    by_cases g2 : name = "generation-ii".toList
    · rw [if_pos g2] at h; exact absurd h (by decide)
    rw [if_neg g2] at h
    by_cases g3 : name = "generation-iii".toList
    · rw [if_pos g3] at h; exact g3
    rw [if_neg g3] at h
    by_cases g4 : name = "generation-iv".toList
    · rw [if_pos g4] at h; exact absurd h (by decide)
    rw [if_neg g4] at h
    by_cases g5 : name = "generation-v".toList
    · rw [if_pos g5] at h; exact absurd h (by decide)
    rw [if_neg g5] at h
    by_cases g6 : name = "generation-vi".toList
    · rw [if_pos g6] at h; exact absurd h (by decide)
    rw [if_neg g6] at h
    by_cases g7 : name = "generation-vii".toList
    · rw [if_pos g7] at h; exact absurd h (by decide)
    rw [if_neg g7] at h
    by_cases g8 : name = "generation-viii".toList
    · rw [if_pos g8] at h; exact absurd h (by decide)
    rw [if_neg g8] at h
    exact absurd h (by decide)
  · intro h
    subst h
    decide

theorem getGeneration_eq_4_iff (name : List Char) :
    getGeneration name = 4 ↔ name = "generation-iv".toList := by
  constructor
  · intro h
    unfold getGeneration at h
    by_cases g1 : name = "generation-i".toList
    · rw [if_pos g1] at h; exact absurd h (by decide)
    rw [if_neg g1] at h
    by_cases g2 : name = "generation-ii".toList
    · rw [if_pos g2] at h; exact absurd h (by decide)
    rw [if_neg g2] at h
    by_cases g3 : name = "generation-iii".toList
    · rw [if_pos g3] at h; exact absurd h (by decide)
    rw [if_neg g3] at h
    by_cases g4 : name = "generation-iv".toList
    · rw [if_pos g4] at h; exact g4
    rw [if_neg g4] at h
    by_cases g5 : name = "generation-v".toList
    · rw [if_pos g5] at h; exact absurd h (by decide)
    rw [if_neg g5] at h
    by_cases g6 : name = "generation-vi".toList
    · rw [if_pos g6] at h; exact absurd h (by decide)
    rw [if_neg g6] at h
    by_cases g7 : name = "generation-vii".toList
    · rw [if_pos g7] at h; exact absurd h (by decide)
    rw [if_neg g7] at h
    by_cases g8 : name = "generation-viii".toList
    · rw [if_pos g8] at h; exact absurd h (by decide)
    rw [if_neg g8] at h
    exact absurd h (by decide)
  · intro h
    subst h
    decide

theorem getGeneration_eq_5_iff (name : List Char) :
    getGeneration name = 5 ↔ name = "generation-v".toList := by
  constructor
  · intro h
    unfold getGeneration at h
    by_cases g1 : name = "generation-i".toList
    · rw [if_pos g1] at h; exact absurd h (by decide)
    rw [if_neg g1] at h
    by_cases g2 : name = "generation-ii".toList
    · rw [if_pos g2] at h; exact absurd h (by decide)
    rw [if_neg g2] at h
    by_cases g3 : name = "generation-iii".toList
    · rw [if_pos g3] at h; exact absurd h (by decide)
    rw [if_neg g3] at h
    by_cases g4 : name = "generation-iv".toList
    · rw [if_pos g4] at h; exact absurd h (by decide)
    rw [if_neg g4] at h
    by_cases g5 : name = "generation-v".toList
    · rw [if_pos g5] at h; exact g5
    rw [if_neg g5] at h
    by_cases g6 : name = "generation-vi".toList
    · rw [if_pos g6] at h; exact absurd h (by decide)
    rw [if_neg g6] at h
    by_cases g7 : name = "generation-vii".toList
    · rw [if_pos g7] at h; exact absurd h (by decide)
    rw [if_neg g7] at h
    by_cases g8 : name = "generation-viii".toList
    · rw [if_pos g8] at h; exact absurd h (by decide)
    rw [if_neg g8] at h
    exact absurd h (by decide)
  · intro h
    subst h
    decide

theorem getGeneration_eq_6_iff (name : List Char) :
    getGeneration name = 6 ↔ name = "generation-vi".toList := by
  constructor
  · intro h
    unfold getGeneration at h
    by_cases g1 : name = "generation-i".toList
    · rw [if_pos g1] at h; exact absurd h (by decide)
    rw [if_neg g1] at h
    by_cases g2 : name = "generation-ii".toList
    · rw [if_pos g2] at h; exact absurd h (by decide)
    rw [if_neg g2] at h
    by_cases g3 : name = "generation-iii".toList
    · rw [if_pos g3] at h; exact absurd h (by decide)
    rw [if_neg g3] at h
    by_cases g4 : name = "generation-iv".toList
    · rw [if_pos g4] at h; exact absurd h (by decide)
    rw [if_neg g4] at h
    by_cases g5 : name = "generation-v".toList
    · rw [if_pos g5] at h; exact absurd h (by decide)
    rw [if_neg g5] at h
    by_cases g6 : name = "generation-vi".toList
    · rw [if_pos g6] at h; exact g6
    rw [if_neg g6] at h
    by_cases g7 : name = "generation-vii".toList
    · rw [if_pos g7] at h; exact absurd h (by decide)
    rw [if_neg g7] at h
    by_cases g8 : name = "generation-viii".toList
    · rw [if_pos g8] at h; exact absurd h (by decide)
    rw [if_neg g8] at h
    exact absurd h (by decide)
  · intro h
    subst h
    decide

theorem getGeneration_eq_7_iff (name : List Char) :
    getGeneration name = 7 ↔ name = "generation-vii".toList := by
  constructor
  · intro h
    unfold getGeneration at h
    by_cases g1 : name = "generation-i".toList
    · rw [if_pos g1] at h; exact absurd h (by decide)
    rw [if_neg g1] at h
    by_cases g2 : name = "generation-ii".toList
    · rw [if_pos g2] at h; exact absurd h (by decide)
    rw [if_neg g2] at h
    by_cases g3 : name = "generation-iii".toList
    · rw [if_pos g3] at h; exact absurd h (by decide)
    rw [if_neg g3] at h
    by_cases g4 : name = "generation-iv".toList
    · rw [if_pos g4] at h; exact absurd h (by decide)
    rw [if_neg g4] at h
    by_cases g5 : name = "generation-v".toList
    · rw [if_pos g5] at h; exact absurd h (by decide)
    rw [if_neg g5] at h
    by_cases g6 : name = "generation-vi".toList
    · rw [if_pos g6] at h; exact absurd h (by decide)
    rw [if_neg g6] at h
    by_cases g7 : name = "generation-vii".toList
    · rw [if_pos g7] at h; exact g7
    rw [if_neg g7] at h
    by_cases g8 : name = "generation-viii".toList
    · rw [if_pos g8] at h; exact absurd h (by decide)
    rw [if_neg g8] at h
    exact absurd h (by decide)
  · intro h
    subst h
    decide

theorem getGeneration_eq_8_iff (name : List Char) :
    getGeneration name = 8 ↔ name = "generation-viii".toList := by
  constructor
  · intro h
    unfold getGeneration at h
    by_cases g1 : name = "generation-i".toList
    · rw [if_pos g1] at h; exact absurd h (by decide)
    rw [if_neg g1] at h
    by_cases g2 : name = "generation-ii".toList
    · rw [if_pos g2] at h; exact absurd h (by decide)
    rw [if_neg g2] at h
    by_cases g3 : name = "generation-iii".toList
    · rw [if_pos g3] at h; exact absurd h (by decide)
    rw [if_neg g3] at h
    by_cases g4 : name = "generation-iv".toList
    · rw [if_pos g4] at h; exact absurd h (by decide)
    rw [if_neg g4] at h
    by_cases g5 : name = "generation-v".toList
    · rw [if_pos g5] at h; exact absurd h (by decide)
    rw [if_neg g5] at h
    by_cases g6 : name = "generation-vi".toList
    · rw [if_pos g6] at h; exact absurd h (by decide)
    rw [if_neg g6] at h
    by_cases g7 : name = "generation-vii".toList
    · rw [if_pos g7] at h; exact absurd h (by decide)
    rw [if_neg g7] at h
    by_cases g8 : name = "generation-viii".toList
    · rw [if_pos g8] at h; exact g8
    rw [if_neg g8] at h
    exact absurd h (by decide)
  · intro h
    subst h
    decide

/-- C7. `getGeneration` returns `n` in 1..8 exactly on the name
"generation-" followed by the lower-case roman numeral of `n`, and -1 on
every other name. -/
theorem getGeneration_roman (name : List Char) :
    (∀ n : Nat, 1 ≤ n → n ≤ 8 →
      (getGeneration name = (n : Int) ↔ name = "generation-".toList ++ romanNumeral n)) ∧
    ((∀ n : Nat, 1 ≤ n → n ≤ 8 → name ≠ "generation-".toList ++ romanNumeral n) →
      getGeneration name = -1) := by
  constructor
  · intro n h1 h8
    interval_cases n
    · exact getGeneration_eq_1_iff name
    · exact getGeneration_eq_2_iff name
    · exact getGeneration_eq_3_iff name
    · exact getGeneration_eq_4_iff name
    · exact getGeneration_eq_5_iff name
    · exact getGeneration_eq_6_iff name
    · exact getGeneration_eq_7_iff name
    · exact getGeneration_eq_8_iff name
  · intro h
    unfold getGeneration
    have h1 : ¬ name = "generation-i".toList := h 1 (by omega) (by omega)
    have h2 : ¬ name = "generation-ii".toList := h 2 (by omega) (by omega)
    have h3 : ¬ name = "generation-iii".toList := h 3 (by omega) (by omega)
    have h4 : ¬ name = "generation-iv".toList := h 4 (by omega) (by omega)
    have h5 : ¬ name = "generation-v".toList := h 5 (by omega) (by omega)
    have h6 : ¬ name = "generation-vi".toList := h 6 (by omega) (by omega)
    have h7 : ¬ name = "generation-vii".toList := h 7 (by omega) (by omega)
    have h8 : ¬ name = "generation-viii".toList := h 8 (by omega) (by omega)
    rw [if_neg h1, if_neg h2, if_neg h3, if_neg h4, if_neg h5, if_neg h6, if_neg h7, if_neg h8]

/-! ### `ToCsv` -/

/-- C8. On an empty collection `ToCsv` returns `ErrEmptyCsv` and leaves the
file system as it was: no file is opened, no content changes. -/
theorem ToCsv_empty (io : Faults) (d : Disk) (csvFile : List Char) :
    ToCsv io d csvFile [] = (d, some Error.ErrEmptyCsv) := rfl

theorem content_appendTo (d : Disk) (path bytes : List Char) :
    (d.appendTo path bytes).content path = (d.content path).map (fun old => old ++ bytes) := by
  unfold Disk.appendTo Disk.content
  simp only
  induction d.files with
  | nil => rfl
  | cons f fs ih =>
      by_cases h : f.1 = path
      · simp [List.find?, h]
      · simp only [List.map_cons, if_neg h]
        rw [List.find?_cons_of_neg _ (by simpa using h),
          List.find?_cons_of_neg _ (by simpa using h)]
        exact ih

theorem writeEntries_ok (io : Faults) (hw : io.writeErrAt = none) (entries : List CsvEntry) :
    ∀ w : Writer, writeEntries io w entries =
      ({ out := w.out ++ (entries.map (fun e => encodeRecord '|' e.ToSlice)).flatten,
         nWrites := w.nWrites + entries.length }, none) := by
  induction entries with
  | nil => intro w; simp [writeEntries]
  | cons e rest ih =>
      intro w
      simp only [writeEntries, writeCsvEntry, Writer.Write, hw]
      rw [if_neg (by simp)]
      simp only [ih, List.map_cons, List.flatten_cons, List.append_assoc, List.length_cons]
      congr 2
      omega

theorem mem_intercalate (c : Char) (sep : List Char) :
    ∀ ls : List (List Char), c ∈ List.intercalate sep ls → c ∈ sep ∨ ∃ l ∈ ls, c ∈ l
  | [] => by simp [List.intercalate]
  | [x] => by
      intro h
      simp only [List.intercalate, List.intersperse, List.flatten_cons, List.flatten_nil,
        List.append_nil] at h
      exact Or.inr ⟨x, List.mem_singleton_self x, h⟩
  | x :: y :: zs => by
      intro h
      simp only [List.intercalate, List.intersperse, List.flatten_cons, List.mem_append] at h
      rcases h with h | h | h
      · exact Or.inr ⟨x, List.mem_cons_self _ _, h⟩
      · exact Or.inl h
      · rcases mem_intercalate c sep (y :: zs) h with h2 | ⟨l, hl, h2⟩
        · exact Or.inl h2
        · exact Or.inr ⟨l, List.mem_cons_of_mem _ hl, h2⟩

theorem newline_not_mem_writeField (field : List Char) (h : '\n' ∉ field) :
    '\n' ∉ writeField '|' field := by
  unfold writeField
  split
  · intro hm
    simp only [List.mem_cons, List.mem_append, List.mem_flatMap, List.mem_singleton,
      List.not_mem_nil, or_false] at hm
    rcases hm with (hm | ⟨c, hc, hm⟩) | hm
    · exact absurd hm (by decide)
    · by_cases hq : c = '"'
      · rw [if_pos hq] at hm
        simp only [List.mem_cons, List.mem_singleton, List.not_mem_nil, or_false, or_self] at hm
        exact absurd hm (by decide)
      · rw [if_neg hq] at hm
        simp only [List.mem_singleton] at hm
        subst hm
        exact h hc
    · exact absurd hm (by decide)
  · exact h

theorem lineCount_encodeRecord (record : List (List Char))
    (h : ∀ field ∈ record, '\n' ∉ field) : lineCount (encodeRecord '|' record) = 1 := by
  unfold lineCount encodeRecord
  rw [List.count_append]
  have h0 : List.count '\n' (List.intercalate ['|'] (record.map (writeField '|'))) = 0 := by
    rw [List.count_eq_zero]
    intro hm
    rcases mem_intercalate _ _ _ hm with h1 | ⟨l, hl, h1⟩
    · exact absurd h1 (by decide)
    · obtain ⟨f, hf, rfl⟩ := List.mem_map.mp hl
      exact newline_not_mem_writeField f (h f hf) h1
  rw [h0]
  decide

theorem lineCount_records (records : List (List (List Char)))
    (h : ∀ record ∈ records, ∀ field ∈ record, '\n' ∉ field) :
    lineCount (records.map (encodeRecord '|')).flatten = records.length := by
  induction records with
  | nil => rfl
  | cons r rest ih =>
      have h1 := lineCount_encodeRecord r (h r (List.mem_cons_self _ _))
      have h2 := ih (fun x hx => h x (List.mem_cons_of_mem _ hx))
      unfold lineCount at *
      simp only [List.map_cons, List.flatten_cons, List.count_append, List.length_cons, h1, h2]
      omega

theorem content_appendTo_other (d : Disk) (path other bytes : List Char) (h : other ≠ path) :
    (d.appendTo path bytes).content other = d.content other := by
  unfold Disk.appendTo Disk.content
  simp only
  induction d.files with
  | nil => rfl
  | cons f fs ih =>
      by_cases hp : f.1 = path
      · have ho : ¬ f.1 = other := fun e => h (e.symm.trans hp)
        simp only [List.map_cons, if_pos hp]
        rw [List.find?_cons_of_neg _ (by simpa using ho),
          List.find?_cons_of_neg _ (by simpa using ho)]
        exact ih
      · simp only [List.map_cons, if_neg hp]
        by_cases ho : f.1 = other
        · simp [List.find?, ho]
        · rw [List.find?_cons_of_neg _ (by simpa using ho),
            List.find?_cons_of_neg _ (by simpa using ho)]
          exact ih

theorem ToCsv_ok (io : Faults) (d : Disk) (csvFile : List Char) (first : CsvEntry)
    (rest : List CsvEntry) (old : List Char)
    (hopen : io.openErr = false) (hwrite : io.writeErrAt = none) (hflush : io.flushErr = false)
    (hfile : d.content csvFile = some old) :
    ToCsv io d csvFile (first :: rest) =
      (({ d with opened := d.opened ++ [csvFile] } : Disk).appendTo csvFile
          ((first.GetHeader :: (first :: rest).map CsvEntry.ToSlice).map
            (encodeRecord '|')).flatten,
        none) := by
  have hw := writeEntries_ok io hwrite (first :: rest)
    { out := encodeRecord '|' first.GetHeader, nWrites := 1 }
  simp only [ToCsv, hopen, hfile, hflush, Writer.Write, hwrite]
  simp only [Bool.false_eq_true, false_or, reduceCtorEq, if_false, List.nil_append, hw]
  simp [List.map_cons, List.flatten_cons]
  rfl

/-- C9 (amended). For a non-empty list of entries, when opening the target,
every write and the final flush succeed, `ToCsv` returns no error and appends
to the target exactly the records header of the first entry, then `ToSlice` of
each entry in input order, each encoded with the pipe as separator and ended
by a newline; no other file changes.  These are one more records than there
are entries, and, when no field contains a newline character, exactly that
many lines. -/
theorem ToCsv_appends_records (io : Faults) (d : Disk) (csvFile : List Char) (first : CsvEntry)
    (rest : List CsvEntry) (old : List Char)
    (hopen : io.openErr = false) (hwrite : io.writeErrAt = none) (hflush : io.flushErr = false)
    (hfile : d.content csvFile = some old) :
    (ToCsv io d csvFile (first :: rest)).2 = none ∧
    (ToCsv io d csvFile (first :: rest)).1.content csvFile =
      some (old ++ ((first.GetHeader :: (first :: rest).map CsvEntry.ToSlice).map
        (encodeRecord '|')).flatten) ∧
    (∀ other, other ≠ csvFile →
      (ToCsv io d csvFile (first :: rest)).1.content other = d.content other) ∧
    (first.GetHeader :: (first :: rest).map CsvEntry.ToSlice).length
      = (first :: rest).length + 1 ∧
    ((∀ record ∈ first.GetHeader :: (first :: rest).map CsvEntry.ToSlice,
        ∀ field ∈ record, '\n' ∉ field) →
      lineCount ((first.GetHeader :: (first :: rest).map CsvEntry.ToSlice).map
        (encodeRecord '|')).flatten = (first :: rest).length + 1) := by
  rw [ToCsv_ok io d csvFile first rest old hopen hwrite hflush hfile]
  refine ⟨rfl, ?_, ?_, by simp, ?_⟩
  · rw [content_appendTo]
    have : ({ d with opened := d.opened ++ [csvFile] } : Disk).content csvFile = some old := hfile
    rw [this]
    rfl
  · intro other ho
    rw [content_appendTo_other _ _ _ _ ho]
    rfl
  · intro h
    rw [lineCount_records _ h]
    simp

/-- C9 (counterexample). One entry whose value row holds a field with a
newline: the call succeeds and appends three lines, not two. -/
theorem ToCsv_field_with_newline :
    (ToCsv noFaults { files := [("pokemon.csv".toList, [])], opened := [] } "pokemon.csv".toList
        [{ GetHeader := ["name".toList], ToSlice := ["a\nb".toList] }]).2 = none ∧
    (ToCsv noFaults { files := [("pokemon.csv".toList, [])], opened := [] } "pokemon.csv".toList
        [{ GetHeader := ["name".toList], ToSlice := ["a\nb".toList] }]).1.content
          "pokemon.csv".toList = some "name\n\"a\nb\"\n".toList ∧
    lineCount "name\n\"a\nb\"\n".toList = 3 := by
  decide

/-- C9 (witness). Two entries appended to a file that holds one line. -/
theorem ToCsv_appends_records_witness :
    (ToCsv noFaults { files := [("moves.csv".toList, "x\n".toList)], opened := [] }
        "moves.csv".toList
        [{ GetHeader := ["id".toList, "name".toList], ToSlice := ["1".toList, "pound".toList] },
         { GetHeader := ["id".toList, "name".toList],
           ToSlice := ["2".toList, "karate chop".toList] }]).1.content "moves.csv".toList
      = some "x\nid|name\n1|pound\n2|karate chop\n".toList := by
  have h := (ToCsv_appends_records noFaults
    { files := [("moves.csv".toList, "x\n".toList)], opened := [] } "moves.csv".toList
    { GetHeader := ["id".toList, "name".toList], ToSlice := ["1".toList, "pound".toList] }
    [{ GetHeader := ["id".toList, "name".toList],
       ToSlice := ["2".toList, "karate chop".toList] }] "x\n".toList rfl rfl rfl (by decide)).2.1
  rw [h]
  decide

/-! ### `GetAPIData` -/

theorem fetchLoop_panics (results : List (List Char)) (lang : List Char) :
    ∀ (todo i : Nat), i ≤ results.length → results.length < i + todo →
      (fetchLoop results lang todo i).2 = false := by
  intro todo
  induction todo with
  | zero => intro i h1 h2; omega
  | succ todo ih =>
      intro i h1 h2
      unfold fetchLoop
      cases hg : results.get? i with
      | none => rfl
      | some url =>
          have hi : i < results.length := by
            by_contra hcon
            rw [List.get?_eq_none.mpr (by omega)] at hg
            exact absurd hg (by simp)
          exact ih (i + 1) (by omega) (by omega)

/-- Whenever the listing declares more resources than it returns locators,
`GetAPIData` panics. -/
theorem GetAPIData_panics_of_short (getBasicResponse : Int → List Char → Except Error BasicResponse)
    (limit : Int) (endpoint lang : List Char) (resp : BasicResponse)
    (hresp : getBasicResponse limit endpoint = Except.ok resp)
    (hshort : (resp.Results.length : Int) < resp.Count) :
    (GetAPIData getBasicResponse limit endpoint lang).2 = Outcome.panicked := by
  unfold GetAPIData
  rw [hresp]
  have h := fetchLoop_panics resp.Results lang resp.Count.toNat 0 (by omega) (by omega)
  simp only [h]
  rfl

/-- C10 (failing input). The listing declares three resources and returns one
locator: `GetAPIData` calls `Init(3)`, registers and starts the one fetch,
registers a second worker, and panics on the missing locator; `Wait` and
`PostProcess` are never reached. -/
theorem GetAPIData_panics_on_short_page :
    GetAPIData
        (fun _ _ => Except.ok
          { Count := 3, Results := ["https://pokeapi.co/api/v2/pokemon/1/".toList] })
        1 "pokemon".toList "en".toList
      = ([Call.Init 3, Call.AddWorker,
          Call.GoFetchEntries "https://pokeapi.co/api/v2/pokemon/1/".toList "en".toList 0,
          Call.AddWorker], Outcome.panicked) := by
  decide

/-! ### `GetAPIData` and `FetchData` -/

theorem fetchLoop_eq (lang : List Char) :
    ∀ (todo : Nat) (pre rest : List (List Char)),
      fetchLoop (pre ++ rest) lang todo pre.length =
        if todo ≤ rest.length then (taskCalls lang pre.length (rest.take todo), true)
        else (taskCalls lang pre.length rest ++ [Call.AddWorker], false) := by
  intro todo
  induction todo with
  | zero => intro pre rest; simp [fetchLoop, taskCalls]
  | succ todo ih =>
      intro pre rest
      cases rest with
      | nil =>
          have hg : (pre ++ ([] : List (List Char))).get? pre.length = none := by
            simp
          simp [fetchLoop, hg, taskCalls]
      | cons url urls =>
          have hg : (pre ++ url :: urls).get? pre.length = some url := by
            rw [List.get?_eq_getElem?, List.getElem?_append_right (le_refl _)]
            simp
          have hpre : pre ++ url :: urls = (pre ++ [url]) ++ urls := by simp
          have ih2 := ih (pre ++ [url]) urls
          rw [← hpre] at ih2
          simp only [List.length_append, List.length_singleton] at ih2
          simp only [fetchLoop, hg, ih2, List.length_cons, Nat.add_le_add_iff_right]
          by_cases h : todo ≤ urls.length
          · simp [h, taskCalls]
          · simp [h, taskCalls]

/-- The calls of `GetAPIData` after a successful listing: the complete
sequence when at least `Count` locators were returned, and otherwise the
sequence up to the panic. -/
theorem GetAPIData_calls (getBasicResponse : Int → List Char → Except Error BasicResponse)
    (limit : Int) (endpoint lang : List Char) (resp : BasicResponse)
    (hresp : getBasicResponse limit endpoint = Except.ok resp) :
    GetAPIData getBasicResponse limit endpoint lang =
      if resp.Count.toNat ≤ resp.Results.length then
        (Call.Init resp.Count :: taskCalls lang 0 (resp.Results.take resp.Count.toNat)
          ++ [Call.Wait, Call.PostProcess], Outcome.returned none)
      else
        (Call.Init resp.Count :: taskCalls lang 0 resp.Results ++ [Call.AddWorker],
          Outcome.panicked) := by
  unfold GetAPIData
  rw [hresp]
  have h := fetchLoop_eq lang resp.Count.toNat [] resp.Results
  simp only [List.nil_append, List.length_nil] at h
  simp only [h]
  by_cases hc : resp.Count.toNat ≤ resp.Results.length
  · simp [hc]
  · simp [hc]

theorem fetchStarts_taskCalls (lang : List Char) :
    ∀ (urls : List (List Char)) (i : Nat),
      fetchStarts (taskCalls lang i urls) = (urls.enumFrom i).map (fun p => (p.2, lang, p.1)) := by
  intro urls
  induction urls with
  | nil => intro i; rfl
  | cons url urls ih =>
      intro i
      simp [taskCalls, fetchStarts, ih, List.enumFrom]

theorem fetchStarts_append (xs ys : List Call) :
    fetchStarts (xs ++ ys) = fetchStarts xs ++ fetchStarts ys := by
  induction xs with
  | nil => rfl
  | cons c cs ih => cases c <;> simp [fetchStarts, ih]

/-- C11. When the listing returns as many locators as it declares, `GetAPIData`
returns nil and starts exactly one fetch per locator: the `i`-th task started,
counted from 0 in discovery order, is `FetchEntries(locator_i, lang, i)`; the
slot indices handed out are `0, 1, ..., count-1` in this order, pairwise
distinct. -/
theorem GetAPIData_slots (getBasicResponse : Int → List Char → Except Error BasicResponse)
    (limit : Int) (endpoint lang : List Char) (resp : BasicResponse)
    (hresp : getBasicResponse limit endpoint = Except.ok resp)
    (hcount : resp.Count = (resp.Results.length : Int)) :
    (GetAPIData getBasicResponse limit endpoint lang).2 = Outcome.returned none ∧
    fetchStarts (GetAPIData getBasicResponse limit endpoint lang).1
      = resp.Results.enum.map (fun p => (p.2, lang, p.1)) ∧
    (fetchStarts (GetAPIData getBasicResponse limit endpoint lang).1).length
      = resp.Count.toNat ∧
    (fetchStarts (GetAPIData getBasicResponse limit endpoint lang).1).map (fun t => t.2.2)
      = List.range resp.Count.toNat ∧
    ((fetchStarts (GetAPIData getBasicResponse limit endpoint lang).1).map
      (fun t => t.2.2)).Nodup := by
  have hn : resp.Count.toNat = resp.Results.length := by omega
  have hcalls := GetAPIData_calls getBasicResponse limit endpoint lang resp hresp
  rw [if_pos (by omega), hn, List.take_length] at hcalls
  have hstarts : fetchStarts (GetAPIData getBasicResponse limit endpoint lang).1
      = resp.Results.enum.map (fun p => (p.2, lang, p.1)) := by
    rw [hcalls]
    show fetchStarts (taskCalls lang 0 resp.Results ++ [Call.Wait, Call.PostProcess]) = _
    rw [fetchStarts_append, fetchStarts_taskCalls]
    simp [fetchStarts, List.enum]
  have hidx : (fetchStarts (GetAPIData getBasicResponse limit endpoint lang).1).map
      (fun t => t.2.2) = List.range resp.Count.toNat := by
    rw [hstarts, hn, List.map_map, ← List.enum_map_fst]
    rfl
  refine ⟨by rw [hcalls], hstarts, ?_, hidx, ?_⟩
  · rw [hstarts, hn]; simp
  · rw [hidx]; exact List.nodup_range _

/-- C11 (witness). -/
theorem GetAPIData_slots_witness :
    fetchStarts (GetAPIData
        (fun _ _ => Except.ok { Count := 2, Results := ["a/1/".toList, "a/2/".toList] })
        20 "pokemon".toList "en".toList).1
      = [("a/1/".toList, "en".toList, 0), ("a/2/".toList, "en".toList, 1)] :=
  (GetAPIData_slots (fun _ _ => Except.ok { Count := 2, Results := ["a/1/".toList, "a/2/".toList] })
    20 "pokemon".toList "en".toList { Count := 2, Results := ["a/1/".toList, "a/2/".toList] }
    rfl (by decide)).2.1

theorem protocol_taskCalls (count : Int) (lang : List Char) :
    ∀ (urls : List (List Char)) (i : Nat),
      (taskCalls lang i urls).foldl (protocolStep count) (Phase.fetching i i)
        = Phase.fetching (i + urls.length) (i + urls.length) := by
  intro urls
  induction urls with
  | nil => intro i; rfl
  | cons url urls ih =>
      intro i
      simp only [taskCalls, List.foldl_cons, protocolStep, if_true, List.length_cons]
      rw [ih (i + 1)]
      congr 1 <;> omega

theorem wait_not_mem_taskCalls (lang : List Char) :
    ∀ (urls : List (List Char)) (i : Nat), Call.Wait ∉ taskCalls lang i urls := by
  intro urls
  induction urls with
  | nil => intro i; simp [taskCalls]
  | cons url urls ih => intro i; simp [taskCalls, ih]

theorem postProcess_not_mem_taskCalls (lang : List Char) :
    ∀ (urls : List (List Char)) (i : Nat), Call.PostProcess ∉ taskCalls lang i urls := by
  intro urls
  induction urls with
  | nil => intro i; simp [taskCalls]
  | cons url urls ih => intro i; simp [taskCalls, ih]

/-- C12. After a successful listing the calls that `GetAPIData` makes on the
receiver follow the protocol: `Init(count)` first, every task start right
after its own registration, `Wait` only once `count` tasks are registered and
started, `PostProcess` only after `Wait`.  The protocol is never violated, a
run that returns has gone through all of it, and a run that does not return
never reaches `Wait`. -/
theorem GetAPIData_protocol (getBasicResponse : Int → List Char → Except Error BasicResponse)
    (limit : Int) (endpoint lang : List Char) (resp : BasicResponse)
    (hresp : getBasicResponse limit endpoint = Except.ok resp) :
    protocol resp.Count (GetAPIData getBasicResponse limit endpoint lang).1 ≠ Phase.violated ∧
    ((GetAPIData getBasicResponse limit endpoint lang).2 = Outcome.returned none →
      protocol resp.Count (GetAPIData getBasicResponse limit endpoint lang).1
        = Phase.postProcessed) ∧
    ((GetAPIData getBasicResponse limit endpoint lang).2 ≠ Outcome.returned none →
      Call.Wait ∉ (GetAPIData getBasicResponse limit endpoint lang).1 ∧
      Call.PostProcess ∉ (GetAPIData getBasicResponse limit endpoint lang).1) := by
  have hcalls := GetAPIData_calls getBasicResponse limit endpoint lang resp hresp
  by_cases hc : resp.Count.toNat ≤ resp.Results.length
  · rw [if_pos hc] at hcalls
    have hlen : (resp.Results.take resp.Count.toNat).length = resp.Count.toNat := by
      rw [List.length_take]; omega
    have hp : protocol resp.Count (GetAPIData getBasicResponse limit endpoint lang).1
        = Phase.postProcessed := by
      rw [hcalls]
      simp only [protocol, List.cons_append, List.foldl_cons, List.foldl_append, protocolStep,
        if_true]
      rw [protocol_taskCalls, hlen]
      simp [protocolStep]
    refine ⟨by rw [hp]; decide, fun _ => hp, fun h => absurd (by rw [hcalls]) h⟩
  · rw [if_neg hc] at hcalls
    refine ⟨?_, fun h => ?_, fun _ => ?_⟩
    · rw [hcalls]
      simp only [protocol, List.cons_append, List.foldl_cons, List.foldl_append, protocolStep,
        if_true]
      rw [protocol_taskCalls]
      simp [protocolStep]
    · rw [hcalls] at h
      simp at h
    · rw [hcalls]
      have hw := wait_not_mem_taskCalls lang resp.Results 0
      have hp := postProcess_not_mem_taskCalls lang resp.Results 0
      simp [hw, hp]

/-- C12 (witness). A listing of two resources with both locators. -/
theorem GetAPIData_protocol_witness :
    protocol 2 (GetAPIData
        (fun _ _ => Except.ok { Count := 2, Results := ["a/1/".toList, "a/2/".toList] })
        20 "pokemon".toList "en".toList).1 = Phase.postProcessed :=
  (GetAPIData_protocol
    (fun _ _ => Except.ok { Count := 2, Results := ["a/1/".toList, "a/2/".toList] })
    20 "pokemon".toList "en".toList { Count := 2, Results := ["a/1/".toList, "a/2/".toList] }
    rfl).2.1 (by decide)

theorem GetAPIData_of_listing_error
    (getBasicResponse : Int → List Char → Except Error BasicResponse)
    (limit : Int) (endpoint lang : List Char) (err : Error)
    (h : getBasicResponse limit endpoint = Except.error err) :
    GetAPIData getBasicResponse limit endpoint lang = ([], Outcome.returned (some err)) := by
  unfold GetAPIData
  rw [h]

theorem FetchData_cons_ok (getBasicResponse : Int → List Char → Except Error BasicResponse)
    (limit : Int) (lang e : List Char) (rest : List (List Char)) (calls : List Call)
    (h : GetAPIData getBasicResponse limit e lang = (calls, Outcome.returned none)) :
    FetchData getBasicResponse limit lang (e :: rest) =
      (calls :: (FetchData getBasicResponse limit lang rest).1,
        (FetchData getBasicResponse limit lang rest).2) := by
  simp only [FetchData, h]

/-- Apart from the panic on a short listing, `FetchData` fails fast: when the
receivers before the first failing listing all get at least as many locators
as declared, each of them runs its complete sequence, the error of the failing
listing is returned, and that receiver and the later ones get no call. -/
theorem FetchData_fails_fast (getBasicResponse : Int → List Char → Except Error BasicResponse)
    (limit : Int) (lang : List Char) (err : Error) (r : List Char) (post : List (List Char))
    (hfail : getBasicResponse limit r = Except.error err) :
    ∀ pre : List (List Char),
      (∀ e ∈ pre, ∃ resp, getBasicResponse limit e = Except.ok resp ∧
        resp.Count.toNat ≤ resp.Results.length) →
      FetchData getBasicResponse limit lang (pre ++ r :: post) =
        (pre.map (fun e => (GetAPIData getBasicResponse limit e lang).1)
          ++ [] :: post.map (fun _ => []), Outcome.returned (some err)) := by
  intro pre
  induction pre with
  | nil =>
      intro _
      simp [FetchData, GetAPIData_of_listing_error getBasicResponse limit r lang err hfail]
  | cons e pre ih =>
      intro h
      obtain ⟨resp, hresp, hfull⟩ := h e (List.mem_cons_self _ _)
      have hcalls := GetAPIData_calls getBasicResponse limit e lang resp hresp
      rw [if_pos hfull] at hcalls
      have ih2 := ih (fun x hx => h x (List.mem_cons_of_mem _ hx))
      rw [List.cons_append, FetchData_cons_ok getBasicResponse limit lang e _ _ hcalls, ih2,
        List.map_cons, hcalls]
      rfl

/-- Apart from the panic on a short listing, `FetchData` returns nil when
every listing succeeds, after the complete sequence of every receiver. -/
theorem FetchData_all_ok (getBasicResponse : Int → List Char → Except Error BasicResponse)
    (limit : Int) (lang : List Char) :
    ∀ recv : List (List Char),
      (∀ e ∈ recv, ∃ resp, getBasicResponse limit e = Except.ok resp ∧
        resp.Count.toNat ≤ resp.Results.length) →
      FetchData getBasicResponse limit lang recv =
        (recv.map (fun e => (GetAPIData getBasicResponse limit e lang).1),
          Outcome.returned none) := by
  intro recv
  induction recv with
  | nil => intro _; rfl
  | cons e recv ih =>
      intro h
      obtain ⟨resp, hresp, hfull⟩ := h e (List.mem_cons_self _ _)
      have hcalls := GetAPIData_calls getBasicResponse limit e lang resp hresp
      rw [if_pos hfull] at hcalls
      have ih2 := ih (fun x hx => h x (List.mem_cons_of_mem _ hx))
      rw [FetchData_cons_ok getBasicResponse limit lang e _ _ hcalls, ih2, List.map_cons, hcalls]

/-- C13 (failing input). Two receivers: the listing of the first succeeds,
declaring two resources with one locator, the listing of the second fails.
`FetchData` does not return the error of the second listing: it panics inside
the first receiver, which never gets `Wait` or `PostProcess`.  With one
receiver whose listing succeeds in this way, `FetchData` does not return nil. -/
theorem FetchData_panics_before_failing_listing :
    FetchData
        (fun _ endpoint =>
          if endpoint = "pokemon".toList then
            Except.ok { Count := 2, Results := ["https://pokeapi.co/api/v2/pokemon/1/".toList] }
          else Except.error Error.ErrListing)
        1 "en".toList ["pokemon".toList, "move".toList]
      = ([[Call.Init 2, Call.AddWorker,
           Call.GoFetchEntries "https://pokeapi.co/api/v2/pokemon/1/".toList "en".toList 0,
           Call.AddWorker], []], Outcome.panicked) ∧
    FetchData
        (fun _ _ =>
          Except.ok { Count := 2, Results := ["https://pokeapi.co/api/v2/pokemon/1/".toList] })
        1 "en".toList ["pokemon".toList]
      = ([[Call.Init 2, Call.AddWorker,
           Call.GoFetchEntries "https://pokeapi.co/api/v2/pokemon/1/".toList "en".toList 0,
           Call.AddWorker]], Outcome.panicked) := by
  decide

/-! ### Panics of the lookups -/

/-- C14 (failing input). On the empty string, and on any locator with fewer
than seven pieces, `resolveVersionGroup` panics. -/
theorem resolveVersionGroup_panics_on_short :
    resolveVersionGroup "".toList = none ∧
    resolveVersionGroup "version-group/3/".toList = none := by
  decide

/-- C15 (failing input). One entry of another language with an empty
version-group locator: `getFlavorText` panics instead of returning the empty
string; so it does when the entry has the language asked for. -/
theorem getFlavorText_panics_on_malformed :
    getFlavorText 1 "en".toList [⟨"texto".toList, "es".toList, "".toList⟩] = none ∧
    getFlavorText 1 "en".toList [⟨"text".toList, "en".toList, "".toList⟩] = none := by
  decide

/-! ### Output of `sanitizeString` -/

theorem not_mem_of_singleton_absent (c : Char) (t : List Char) (h : ¬ [c] <:+: t) : c ∉ t := by
  intro hm
  obtain ⟨a, b, hab⟩ := List.append_of_mem hm
  exact h ⟨a, b, by rw [hab]; simp⟩

/-- C16. No output of `sanitizeString` contains a newline, a soft hyphen or a
right single quote; and the six stat-name variants and the concrete case of
the specification are canonicalised. -/
theorem sanitizeString_output (s : List Char) :
    '\n' ∉ sanitizeString s ∧ '\u00ad' ∉ sanitizeString s ∧ '\u2019' ∉ sanitizeString s ∧
    sanitizeString "SPCL. ATK".toList = "Sp. Atk".toList ∧
    sanitizeString "SP. ATK".toList = "Sp. Atk".toList ∧
    sanitizeString "SPCL.ATK".toList = "Sp. Atk".toList ∧
    sanitizeString "SPCL. DEF".toList = "Sp. Def".toList ∧
    sanitizeString "SP. DEF".toList = "Sp. Def".toList ∧
    sanitizeString "SPCL.DEF".toList = "Sp. Def".toList ∧
    sanitizeString "SP. ATK rises".toList = "Sp. Atk rises".toList := by
  refine ⟨?_, ?_, ?_, by decide, by decide, by decide, by decide, by decide, by decide,
    by decide⟩
  · exact not_mem_of_singleton_absent _ _
      (sanitizeString_patterns_absent s ("\n".toList, " ".toList) (by decide) (by decide))
  · exact not_mem_of_singleton_absent _ _
      (sanitizeString_patterns_absent s ("\u00ad".toList, "".toList) (by decide) (by decide))
  · exact not_mem_of_singleton_absent _ _
      (sanitizeString_patterns_absent s ("\u2019".toList, "'".toList) (by decide) (by decide))

/-! ### Sentinels -/

/-- C18 (counterexample). The sentinel -1 of `getUrlID`, and 0, are mapped to
generation 1, not to 0. -/
theorem getOriginGeneration_nonpositive :
    getOriginGeneration (-1) = 1 ∧ getOriginGeneration 0 = 1 := by
  decide

/-- C18 (amended). `getOriginGeneration` returns a generation in 1..8 exactly
when `id ≤ 905`; every `id ≤ 151`, the non-positive ones included, gives 1, and
exactly the ids above 905 give the sentinel 0. -/
theorem getOriginGeneration_sentinel (id : Int) :
    ((1 ≤ getOriginGeneration id ∧ getOriginGeneration id ≤ 8) ↔ id ≤ 905) ∧
    (id ≤ 151 → getOriginGeneration id = 1) ∧
    (getOriginGeneration id = 0 ↔ 905 < id) := by
  have key : (id ≤ 905 → 1 ≤ getOriginGeneration id ∧ getOriginGeneration id ≤ 8) := by
    intro h
    by_cases h1 : id ≤ 151
    · rw [getOriginGeneration_gen1 id h1]; decide
    by_cases h2 : id ≤ 251
    · rw [getOriginGeneration_gen2 id (by omega) h2]; decide
    by_cases h3 : id ≤ 386
    · rw [getOriginGeneration_gen3 id (by omega) h3]; decide
    by_cases h4 : id ≤ 493
    · rw [getOriginGeneration_gen4 id (by omega) h4]; decide
    by_cases h5 : id ≤ 649
    · rw [getOriginGeneration_gen5 id (by omega) h5]; decide
    by_cases h6 : id ≤ 721
    · rw [getOriginGeneration_gen6 id (by omega) h6]; decide
    by_cases h7 : id ≤ 809
    · rw [getOriginGeneration_gen7 id (by omega) h7]; decide
    · rw [getOriginGeneration_gen8 id (by omega) h]; decide
  refine ⟨⟨fun h => ?_, key⟩, getOriginGeneration_gen1 id, ⟨fun h => ?_, getOriginGeneration_beyond id⟩⟩
  · by_contra hc
    rw [getOriginGeneration_beyond id (by omega)] at h
    omega
  · by_contra hc
    have := key (by omega)
    omega

/-! ### Unknown version groups -/

theorem resolveVersionGroup_of_piece (url seg : List Char)
    (h : (Split '/' url).get? 6 = some seg) :
    resolveVersionGroup url = some (tableGeneration (Atoi seg)) := by
  unfold resolveVersionGroup
  rw [getUrlID_of_piece url seg h]
  cases ha : Atoi seg with
  | none => rfl
  | some id => simp only [versionGroupSwitch_eq_table]

theorem knownGeneration_of_resolve (url : List Char) (gen : Int) (hgen : gen ≠ -1)
    (h : resolveVersionGroup url = some gen) : knownGeneration url = some gen := by
  cases hp : (Split '/' url).get? 6 with
  | none =>
      unfold resolveVersionGroup getUrlID at h
      rw [hp] at h
      simp at h
  | some seg =>
      rw [resolveVersionGroup_of_piece url seg hp] at h
      simp only [Option.some.injEq] at h
      unfold knownGeneration
      rw [hp]
      simp only []
      cases ha : Atoi seg with
      | none =>
          rw [ha] at h
          exact absurd h.symm hgen
      | some id =>
          rw [ha] at h
          cases hf : versionGroupTable.find? (fun e => decide (e.1 = id)) with
          | none =>
              simp only [tableGeneration, hf] at h
              exact absurd h.symm hgen
          | some e =>
              simp only [tableGeneration, hf] at h
              simp only [ha, hf, Option.map_some', h]

/-- C17 (counterexample). For `gen = -1` an entry of the language whose
version group is unknown is taken as the match: no entry of the language has
a known version group mapping to -1, the first entry of the language is
"first", and `getFlavorText` returns "second". -/
theorem getFlavorText_unknown_matches_sentinel :
    (∀ t ∈ [(⟨"first".toList, "en".toList,
                "https://pokeapi.co/api/v2/version-group/1/".toList⟩ : flavorText),
            ⟨"second".toList, "en".toList,
                "https://pokeapi.co/api/v2/version-group/99/".toList⟩],
        wellFormedLocator t.VersionGroupUrl ∧
        (t.LanguageName = "en".toList → knownGeneration t.VersionGroupUrl ≠ some (-1))) ∧
    getFlavorText (-1) "en".toList
        [⟨"first".toList, "en".toList, "https://pokeapi.co/api/v2/version-group/1/".toList⟩,
         ⟨"second".toList, "en".toList, "https://pokeapi.co/api/v2/version-group/99/".toList⟩]
      = some "second".toList := by
  decide

/-- C17 (amended). For every generation other than the sentinel -1, every
language and every list of flavor texts with well-formed locators: when no
entry of the language has a known version-group ID mapping to the generation,
`getFlavorText` returns the sanitized text of the first entry of the language
(the empty string when there is none). -/
theorem getFlavorText_falls_back (gen : Int) (lang : List Char) (texts : List flavorText)
    (hgen : gen ≠ -1)
    (hwf : ∀ t ∈ texts, wellFormedLocator t.VersionGroupUrl)
    (hno : ∀ t ∈ texts, t.LanguageName = lang → knownGeneration t.VersionGroupUrl ≠ some gen) :
    getFlavorText gen lang texts =
      some (match texts.find? (fun t => decide (t.LanguageName = lang)) with
        | some t => sanitizeString t.Text
        | none => []) := by
  have hnone : texts.find? (fun t =>
      decide (t.LanguageName = lang ∧ resolveVersionGroup t.VersionGroupUrl = some gen)) = none := by
    rw [List.find?_eq_none]
    intro t ht
    simp only [decide_eq_true_eq, not_and]
    intro hl hr
    exact hno t ht hl (knownGeneration_of_resolve _ gen hgen hr)
  unfold getFlavorText
  rw [flavorTextLoop_eq gen lang _ texts hwf, hnone, getDefaultFlavorText_eq]

/-- C17 (witness). Generation 2 is asked for; the only entries of the language
belong to generation 1 and to an unknown version group. -/
theorem getFlavorText_falls_back_witness :
    getFlavorText 2 "en".toList
        [⟨"first".toList, "en".toList, "https://pokeapi.co/api/v2/version-group/99/".toList⟩,
         ⟨"second".toList, "en".toList, "https://pokeapi.co/api/v2/version-group/1/".toList⟩]
      = some "first".toList := by
  have h := getFlavorText_falls_back 2 "en".toList
    [⟨"first".toList, "en".toList, "https://pokeapi.co/api/v2/version-group/99/".toList⟩,
     ⟨"second".toList, "en".toList, "https://pokeapi.co/api/v2/version-group/1/".toList⟩]
    (by decide) (by decide) (by decide)
  rw [h]
  decide

/-! ### The fixed position read by `getUrlID` -/

theorem Atoi_plus_toDigits (m : Nat) (hm : m < 2 ^ 63) :
    Atoi ('+' :: Nat.toDigits 10 m) = some (m : Int) := by
  have hne := toDigits_ne_nil m
  have hd := atoiDigits_toDigits m
  have hm2 : m < 9223372036854775808 := by norm_num at hm; exact hm
  simp only [Atoi]
  simp [hne, hd, hm2]

/-- C20. For a locator that splits into at least seven pieces, `getUrlID`
returns the value that `strconv.Atoi` gives for piece 6, and -1 when that
piece does not parse: the decimal numeral of a 64-bit integer `n`, with a
minus sign or a plus sign or none, gives `n`.  The result depends on no other
piece: two locators with the same piece 6 give the same result.  A locator
whose ID stands at index 5 gives -1. -/
theorem getUrlID_fixed_position (url : List Char) (h : 7 ≤ (Split '/' url).length) :
    ∃ seg, (Split '/' url).get? 6 = some seg ∧
      getUrlID url = some ((Atoi seg).getD (-1)) ∧
      (∀ n : Int, -(2 ^ 63) ≤ n → n < 2 ^ 63 → seg = decimalNumeral n →
        getUrlID url = some n) ∧
      (∀ m : Nat, m < 2 ^ 63 → seg = '+' :: Nat.toDigits 10 m → getUrlID url = some (m : Int)) ∧
      (Atoi seg = none → getUrlID url = some (-1)) ∧
      (∀ other, (Split '/' other).get? 6 = some seg → getUrlID other = getUrlID url) ∧
      getUrlID "https://pokeapi.co/api/pokemon/25/".toList = some (-1) := by
  have h6 : 6 < (Split '/' url).length := by omega
  have hp : (Split '/' url).get? 6 = some ((Split '/' url).get ⟨6, h6⟩) := List.get?_eq_get h6
  have hid := getUrlID_of_piece url _ hp
  refine ⟨(Split '/' url).get ⟨6, h6⟩, hp, ?_, ?_, ?_, ?_, ?_, by decide⟩
  · rw [hid]
    cases Atoi ((Split '/' url).get ⟨6, h6⟩) <;> rfl
  · intro n hlo hhi hseg
    rw [hid, hseg, Atoi_decimalNumeral n hlo hhi]
  · intro m hm hseg
    rw [hid, hseg, Atoi_plus_toDigits m hm]
  · intro hnone
    rw [hid, hnone]
  · intro other ho
    rw [hid, getUrlID_of_piece other _ ho]

/-- C20 (witness). -/
theorem getUrlID_fixed_position_witness :
    getUrlID "https://pokeapi.co/api/v2/move/-7/x/y".toList = some (-7) := by
  obtain ⟨seg, hseg, _, hn, _⟩ :=
    getUrlID_fixed_position "https://pokeapi.co/api/v2/move/-7/x/y".toList (by decide)
  have hs : seg = decimalNumeral (-7) := by
    have h2 : (Split '/' "https://pokeapi.co/api/v2/move/-7/x/y".toList).get? 6
        = some (decimalNumeral (-7)) := by decide
    rw [h2] at hseg
    exact (Option.some.inj hseg).symm
  exact hn (-7) (by decide) (by decide) hs

/-! ### `GenerateCsvs` -/

theorem CreateFile_cases (env : GenEnv) (d : Disk) (dest fname : List Char) :
    (∃ err, CreateFile env d dest fname = (d, Except.error err)) ∨
    CreateFile env d dest fname
      = (d.create (filepathJoin dest fname), Except.ok (filepathJoin dest fname)) := by
  unfold CreateFile createDir
  by_cases h1 : env.mkdirErr = true
  · left; exact ⟨Error.ErrOpen, by simp [h1]⟩
  · by_cases h2 : env.createErr (filepathJoin dest fname) = true
    · left; exact ⟨Error.ErrOpen, by simp [h1, h2]⟩
    · right; simp [h1, h2]

/-- C19 (counterexample). The moves collection is empty and the pokemon
collection is not: the only `ToCsv` call made is the one on moves.csv, it
fails with `ErrEmptyCsv`, the process ends there, and pokemon.csv, created
empty, is never written. -/
theorem GenerateCsvs_writes_moves_first :
    (GenerateCsvs quietEnv { files := [], opened := [] }
        { CsvEntries := [{ GetHeader := ["name".toList], ToSlice := ["pikachu".toList] }],
          GetCsvRelations := [] }
        { CsvEntries := [] }
        { CsvEntries := [], GetCsvRelations := [] }).1.csvCalls
      = [{ path := "data/moves.csv".toList, entries := [],
           result := some Error.ErrEmptyCsv }] ∧
    (GenerateCsvs quietEnv { files := [], opened := [] }
        { CsvEntries := [{ GetHeader := ["name".toList], ToSlice := ["pikachu".toList] }],
          GetCsvRelations := [] }
        { CsvEntries := [] }
        { CsvEntries := [], GetCsvRelations := [] }).2 = some Error.ErrEmptyCsv ∧
    (GenerateCsvs quietEnv { files := [], opened := [] }
        { CsvEntries := [{ GetHeader := ["name".toList], ToSlice := ["pikachu".toList] }],
          GetCsvRelations := [] }
        { CsvEntries := [] }
        { CsvEntries := [], GetCsvRelations := [] }).1.disk.content "data/pokemon.csv".toList
      = some [] := by
  decide

theorem writeEntries_result (io : Faults) (entries : List CsvEntry) :
    ∀ w : Writer, (writeEntries io w entries).2 =
      match io.writeErrAt with
      | some k => if w.nWrites ≤ k ∧ k < w.nWrites + entries.length then some Error.ErrWrite
          else none
      | none => none := by
  induction entries with
  | nil =>
      intro w
      cases hk : io.writeErrAt with
      | none => simp [writeEntries]
      | some k =>
          simp only [writeEntries, List.length_nil, Nat.add_zero]
          rw [if_neg (by omega)]
  | cons e rest ih =>
      intro w
      cases hk : io.writeErrAt with
      | none =>
          have h := ih { out := w.out ++ encodeRecord '|' e.ToSlice, nWrites := w.nWrites + 1 }
          rw [hk] at h
          simp only [writeEntries, writeCsvEntry, Writer.Write, hk]
          simpa using h
      | some k =>
          by_cases hw : k = w.nWrites
          · subst hw
            simp [writeEntries, writeCsvEntry, Writer.Write, hk]
          · have h := ih { out := w.out ++ encodeRecord '|' e.ToSlice, nWrites := w.nWrites + 1 }
            rw [hk] at h
            have hne : ¬ (some k = some w.nWrites) := by simpa using hw
            simp only [writeEntries, writeCsvEntry, Writer.Write, hk, if_neg hne, h,
              List.length_cons]
            by_cases hc : w.nWrites + 1 ≤ k ∧ k < w.nWrites + 1 + rest.length
            · rw [if_pos hc, if_pos (by omega)]
            · rw [if_neg hc, if_neg (by omega)]

theorem ToCsv_result (io : Faults) (d : Disk) (csvFile : List Char) (entries : List CsvEntry)
    (hex : d.content csvFile ≠ none) :
    (ToCsv io d csvFile entries).2 = csvResult io entries := by
  cases entries with
  | nil => rfl
  | cons first rest =>
      unfold csvResult
      rw [if_neg (by simp)]
      by_cases ho : io.openErr = true
      · simp [ToCsv, ho]
      · rw [if_neg ho]
        have ho2 : ¬ (io.openErr = true ∨ d.content csvFile = none) := by
          intro h
          rcases h with h | h
          · exact ho h
          · exact hex h
        simp only [ToCsv, if_neg ho2]
        cases hk : io.writeErrAt with
        | none =>
            have hw := writeEntries_result io (first :: rest)
              { out := [] ++ encodeRecord '|' first.GetHeader, nWrites := 0 + 1 }
            rw [hk] at hw
            simp only [Writer.Write, hk]
            simpa using hw
        | some k =>
            by_cases hz : k = 0
            · subst hz
              simp [Writer.Write, hk]
            · have hw := writeEntries_result io (first :: rest)
                { out := [] ++ encodeRecord '|' first.GetHeader, nWrites := 0 + 1 }
              rw [hk] at hw
              have hne : ¬ (some k = some 0) := by simpa using hz
              simp only [Writer.Write, hk, if_neg hne, hw]
              by_cases hc : k ≤ (first :: rest).length
              · rw [if_pos hc, if_pos (by omega)]
              · rw [if_neg hc, if_neg (by omega)]

theorem content_create_self (d : Disk) (path : List Char) :
    (d.create path).content path = some [] := by
  simp [Disk.create, Disk.content, List.find?]

theorem content_create_kept (d : Disk) (path q : List Char) (h : d.content q ≠ none) :
    (d.create path).content q ≠ none := by
  by_cases hq : q = path
  · rw [hq, content_create_self]; simp
  · have hq2 : ¬ path = q := fun e => hq e.symm
    unfold Disk.create Disk.content at *
    simp only [ne_eq, Option.map_eq_none'] at h ⊢
    rw [List.find?_cons_of_neg _ (by simpa using hq2)]
    intro hn
    apply h
    rw [List.find?_eq_none] at hn ⊢
    intro f hf
    by_cases hfp : f.1 = path
    · simp only [decide_eq_true_eq]
      intro hfq
      exact hq (hfq.symm.trans hfp)
    · exact hn f (List.mem_filter.mpr ⟨hf, by simpa using hfp⟩)

theorem ToCsv_content_kept (io : Faults) (d : Disk) (csvFile q : List Char)
    (entries : List CsvEntry) (h : d.content q ≠ none) :
    (ToCsv io d csvFile entries).1.content q ≠ none := by
  cases entries with
  | nil => exact h
  | cons first rest =>
      have h1 : ({ d with opened := d.opened ++ [csvFile] } : Disk).content q ≠ none := h
      simp only [ToCsv]
      split
      · exact h1
      · split
        · exact h1
        · by_cases hq : q = csvFile
          · rw [hq, content_appendTo]
            rw [hq] at h1
            simpa using h1
          · rw [content_appendTo_other _ _ _ _ hq]
            exact h1

theorem csvStep_result (env : GenEnv) (s : GenState) (file : List Char)
    (entries : List CsvEntry) :
    ∃ (d1 : Disk) (r : Option Error),
      csvStep env s file entries
        = ({ disk := d1, csvCalls := s.csvCalls ++ [{ path := file, entries := entries, result := r }] }, r)
      ∧ (∀ q, s.disk.content q ≠ none → d1.content q ≠ none)
      ∧ (s.disk.content file ≠ none → r = csvResult (env.faults file) entries) := by
  refine ⟨(ToCsv (env.faults file) s.disk file entries).1,
    (ToCsv (env.faults file) s.disk file entries).2, rfl, ?_, ?_⟩
  · intro q hq
    exact ToCsv_content_kept _ _ _ _ _ hq
  · intro hex
    exact ToCsv_result _ _ _ _ hex

theorem GenerateCsvs_eq_writeAll (env : GenEnv) (d : Disk) (pr : PokemonReceiver)
    (mr : MovesReceiver) (ar : AbilityReceiver) :
    (∃ d1 err, GenerateCsvs env d pr mr ar = ({ disk := d1, csvCalls := [] }, some err)) ∨
    (∃ d1, (∀ p ∈ csvPlan pr mr ar, d1.content p.1 ≠ none) ∧
      GenerateCsvs env d pr mr ar
        = writeAll env { disk := d1, csvCalls := [] } (csvPlan pr mr ar)) := by
  unfold GenerateCsvs
  have j1 : filepathJoin "./data/".toList "moves.csv".toList = "data/moves.csv".toList := by decide
  have j2 : filepathJoin "./data/".toList "pokemon.csv".toList = "data/pokemon.csv".toList := by decide
  have j3 : filepathJoin "./data/".toList "ability.csv".toList = "data/ability.csv".toList := by decide
  have j4 : filepathJoin "./data".toList "ability-relations.csv".toList = "data/ability-relations.csv".toList := by decide
  have j5 : filepathJoin "./data".toList "move-relations.csv".toList = "data/move-relations.csv".toList := by decide
  rcases CreateFile_cases env d "./data/".toList "moves.csv".toList with ⟨e, h⟩ | h
  · rw [h]; exact Or.inl ⟨_, e, rfl⟩
  rw [h, j1]
  clear h
  simp only []
  rcases CreateFile_cases env (d.create "data/moves.csv".toList) "./data/".toList "pokemon.csv".toList with ⟨e, h⟩ | h
  · rw [h]; exact Or.inl ⟨_, e, rfl⟩
  rw [h, j2]
  clear h
  simp only []
  rcases CreateFile_cases env ((d.create "data/moves.csv".toList).create "data/pokemon.csv".toList) "./data/".toList "ability.csv".toList with ⟨e, h⟩ | h
  · rw [h]; exact Or.inl ⟨_, e, rfl⟩
  rw [h, j3]
  clear h
  simp only []
  rcases CreateFile_cases env (((d.create "data/moves.csv".toList).create "data/pokemon.csv".toList).create "data/ability.csv".toList) "./data".toList "ability-relations.csv".toList with ⟨e, h⟩ | h
  · rw [h]; exact Or.inl ⟨_, e, rfl⟩
  rw [h, j4]
  clear h
  simp only []
  rcases CreateFile_cases env ((((d.create "data/moves.csv".toList).create "data/pokemon.csv".toList).create "data/ability.csv".toList).create "data/ability-relations.csv".toList) "./data".toList "move-relations.csv".toList with ⟨e, h⟩ | h
  · rw [h]; exact Or.inl ⟨_, e, rfl⟩
  rw [h, j5]
  clear h
  simp only []
  refine Or.inr ⟨_, ?_, rfl⟩
  intro p hp
  simp only [csvPlan, List.mem_cons, List.mem_singleton, List.not_mem_nil, or_false] at hp
  have hself := content_create_self
  have hkept := content_create_kept
  rcases hp with hp | hp | hp | hp | hp <;> subst hp
  · exact hkept _ _ _ (hkept _ _ _ (hkept _ _ _ (hkept _ _ _ (by rw [hself]; simp))))
  · exact hkept _ _ _ (hkept _ _ _ (hkept _ _ _ (by rw [hself]; simp)))
  · exact hkept _ _ _ (hkept _ _ _ (by rw [hself]; simp))
  · exact hkept _ _ _ (by rw [hself]; simp)
  · rw [hself]; simp

theorem writeAll_calls (env : GenEnv) :
    ∀ (plan : List (List Char × List CsvEntry)) (s : GenState),
      (∀ p ∈ plan, s.disk.content p.1 ≠ none) →
      ∃ calls : List CsvCall,
        (writeAll env s plan).1.csvCalls = s.csvCalls ++ calls ∧
        calls.map (fun c => (c.path, c.entries)) <+: plan ∧
        (∀ c ∈ calls.dropLast, c.result = none) ∧
        (∀ c, calls.getLast? = some c → c.result = (writeAll env s plan).2) ∧
        (calls = [] → (writeAll env s plan).2 = none) ∧
        (∀ c ∈ calls, c.result = csvResult (env.faults c.path) c.entries) ∧
        ((writeAll env s plan).2 = none → calls.map (fun c => (c.path, c.entries)) = plan) := by
  intro plan
  induction plan with
  | nil =>
      intro s _
      exact ⟨[], by simp [writeAll], by simp, by simp, by simp, by simp [writeAll], by simp,
        by simp⟩
  | cons p rest ih =>
      intro s hex
      obtain ⟨file, entries⟩ := p
      obtain ⟨d1, r, hs, hkeep, hres⟩ := csvStep_result env s file entries
      have hr := hres (hex (file, entries) (List.mem_cons_self _ _))
      cases r with
      | some e =>
          refine ⟨[{ path := file, entries := entries, result := some e }], ?_, ?_, ?_, ?_, ?_,
            ?_, ?_⟩
          · simp [writeAll, hs]
          · simp
          · simp
          · simp [writeAll, hs]
          · simp
          · intro c hc
            simp only [List.mem_singleton] at hc
            subst hc
            exact hr
          · simp [writeAll, hs]
      | none =>
          obtain ⟨calls, h1, h2, h3, h4, h5, h6, h7⟩ := ih
            { disk := d1,
              csvCalls := s.csvCalls ++ [{ path := file, entries := entries, result := none }] }
            (fun q hq => hkeep q.1 (hex q (List.mem_cons_of_mem _ hq)))
          have hw : writeAll env s ((file, entries) :: rest) = writeAll env
              { disk := d1,
                csvCalls := s.csvCalls ++ [{ path := file, entries := entries, result := none }] }
              rest := by
            simp only [writeAll, hs]
          rw [hw]
          refine ⟨{ path := file, entries := entries, result := none } :: calls, ?_, ?_, ?_, ?_,
            ?_, ?_, ?_⟩
          · rw [h1]; simp
          · simpa using h2
          · intro c hc
            cases calls with
            | nil => simp at hc
            | cons c2 cs =>
                simp only [List.dropLast_cons₂, List.mem_cons] at hc
                rcases hc with hc | hc
                · rw [hc]
                · exact h3 c hc
          · intro c hc
            cases calls with
            | nil =>
                simp only [List.getLast?_singleton, Option.some.injEq] at hc
                rw [← hc, h5 rfl]
            | cons c2 cs =>
                rw [List.getLast?_cons_cons] at hc
                exact h4 c hc
          · simp
          · intro c hc
            simp only [List.mem_cons] at hc
            rcases hc with hc | hc
            · subst hc
              exact hr
            · exact h6 c hc
          · intro hn
            simp [h7 hn]

/-- C19 (amended). `GenerateCsvs` makes its `ToCsv` calls in the order moves,
pokemon, ability, ability-relations, move-relations, each collection with the
file of its name: the calls made are an initial part of this plan.  Each call
returns the empty-input error for an empty collection, else the error of
opening the file, else the error of a failing `csv.Writer.Write`, and nil
otherwise.  An error returned by a call ends the process before any later
call: every call but the last one made returned nil, the result of the last
call made is the result of the run, and a run that reaches its end has made
all five calls. -/
theorem GenerateCsvs_write_order (env : GenEnv) (d : Disk) (pr : PokemonReceiver)
    (mr : MovesReceiver) (ar : AbilityReceiver) :
    ((GenerateCsvs env d pr mr ar).1.csvCalls.map (fun c => (c.path, c.entries)))
      <+: csvPlan pr mr ar ∧
    (∀ c ∈ (GenerateCsvs env d pr mr ar).1.csvCalls,
      c.result = csvResult (env.faults c.path) c.entries) ∧
    (∀ c ∈ (GenerateCsvs env d pr mr ar).1.csvCalls.dropLast, c.result = none) ∧
    (∀ c, (GenerateCsvs env d pr mr ar).1.csvCalls.getLast? = some c →
      c.result = (GenerateCsvs env d pr mr ar).2) ∧
    ((GenerateCsvs env d pr mr ar).2 = none →
      (GenerateCsvs env d pr mr ar).1.csvCalls.map (fun c => (c.path, c.entries))
        = csvPlan pr mr ar) := by
  rcases GenerateCsvs_eq_writeAll env d pr mr ar with ⟨d1, err, h⟩ | ⟨d1, hex, h⟩
  · rw [h]
    simp
  · rw [h]
    obtain ⟨calls, h1, h2, h3, h4, _, h6, h7⟩ :=
      writeAll_calls env (csvPlan pr mr ar) { disk := d1, csvCalls := [] } hex
    simp only [List.nil_append] at h1
    rw [h1]
    exact ⟨h2, h6, h3, h4, h7⟩

/-- A write that fails only at the deferred `Flush` is not among the errors
that `ToCsv` returns: with a failing flush on moves.csv and five non-empty
collections all five calls return nil, the run reaches its end, moves.csv
stays empty and pokemon.csv is written. -/
theorem GenerateCsvs_flush_failure_goes_on :
    (GenerateCsvs
        { mkdirErr := false, createErr := fun _ => false,
          faults := fun path =>
            if path = "data/moves.csv".toList then
              { openErr := false, writeErrAt := none, flushErr := true }
            else noFaults }
        { files := [], opened := [] }
        { CsvEntries := [{ GetHeader := ["n".toList], ToSlice := ["p".toList] }],
          GetCsvRelations := [{ GetHeader := ["n".toList], ToSlice := ["r".toList] }] }
        { CsvEntries := [{ GetHeader := ["n".toList], ToSlice := ["m".toList] }] }
        { CsvEntries := [{ GetHeader := ["n".toList], ToSlice := ["a".toList] }],
          GetCsvRelations := [{ GetHeader := ["n".toList], ToSlice := ["s".toList] }] }).2
      = none ∧
    ((GenerateCsvs
        { mkdirErr := false, createErr := fun _ => false,
          faults := fun path =>
            if path = "data/moves.csv".toList then
              { openErr := false, writeErrAt := none, flushErr := true }
            else noFaults }
        { files := [], opened := [] }
        { CsvEntries := [{ GetHeader := ["n".toList], ToSlice := ["p".toList] }],
          GetCsvRelations := [{ GetHeader := ["n".toList], ToSlice := ["r".toList] }] }
        { CsvEntries := [{ GetHeader := ["n".toList], ToSlice := ["m".toList] }] }
        { CsvEntries := [{ GetHeader := ["n".toList], ToSlice := ["a".toList] }],
          GetCsvRelations := [{ GetHeader := ["n".toList], ToSlice := ["s".toList] }] }).1.disk.content
        "data/moves.csv".toList = some [] ∧
     (GenerateCsvs
        { mkdirErr := false, createErr := fun _ => false,
          faults := fun path =>
            if path = "data/moves.csv".toList then
              { openErr := false, writeErrAt := none, flushErr := true }
            else noFaults }
        { files := [], opened := [] }
        { CsvEntries := [{ GetHeader := ["n".toList], ToSlice := ["p".toList] }],
          GetCsvRelations := [{ GetHeader := ["n".toList], ToSlice := ["r".toList] }] }
        { CsvEntries := [{ GetHeader := ["n".toList], ToSlice := ["m".toList] }] }
        { CsvEntries := [{ GetHeader := ["n".toList], ToSlice := ["a".toList] }],
          GetCsvRelations := [{ GetHeader := ["n".toList], ToSlice := ["s".toList] }] }).1.disk.content
        "data/pokemon.csv".toList = some "n\np\n".toList) := by
  decide

end Pokemoves
